import Mathlib

/-
  Verification of the revng-c control-flow restructuring engine's AST node
  layer (RestructureCFG/ASTNode.h) and the combing-pass test harness.

  The embedding is heap-based: AST nodes live at natural-number addresses
  (`Ptr`), and every `ASTNode *` field of the C++ classes becomes an
  `Option Ptr`.  Operations that mutate a node in place become functions
  from node data to node data (or from heaps to heaps); operations that can
  fire a `revng_assert` / `revng_abort` or throw (`std::map::at`) return
  `Except AbortKind _`.
-/

namespace Revng

/-- Address of an AST node; models an `ASTNode *` value. -/
abbrev Ptr := Nat

/-- Mirrors `ASTNode::DispatcherKind` (ASTNode.h, lines 41-45). -/
inductive DispatcherKind where
  | DK_NotADispatcher
  | DK_Entry
  | DK_Exit
  deriving DecidableEq

/-- Mirrors `ScsNode::Type` (ASTNode.h, lines 288-292). -/
inductive ScsType where
  | WhileTrue
  | While
  | DoWhile
  deriving DecidableEq

/-- Mirrors `ASTNode::NodeKind` (ASTNode.h, lines 29-39). -/
inductive NodeKind where
  | NK_Code
  | NK_Break
  | NK_Continue
  | NK_If
  | NK_Scs
  | NK_List
  | NK_Switch
  | NK_SwitchBreak
  | NK_Set
  deriving DecidableEq

/-- Per-subclass data of an AST node.  One constructor per concrete C++
subclass of `ASTNode`.  `llvm::BasicBlock *`, `llvm::Value *` and
`ExprNode *` values are opaque handles modelled as `Option Nat`; label sets
(`SwitchNode::label_set_t`, an `llvm::SmallSet<uint64_t, 1>`) are `Finset Nat`.
The `SwitchNode::DKind` member is only assigned when the CFG node is a
dispatcher (ASTNode.h, lines 576-586), so it is modelled as an
`Option DispatcherKind` that is `none` for a non-dispatcher switch. -/
inductive NodeVariant where
  | codeNode (implicitReturn : Bool)
  | breakNode (breakFromWithinSwitch : Bool)
  | continueNode (computationIf : Option Ptr) (isImplicit : Bool)
  | ifNode (thenBranch elseBranch : Option Ptr) (conditionExpression : Option Nat)
      (isWeaved : Bool)
  | scsNode (body : Option Ptr) (loopType : ScsType) (relatedCondition : Option Ptr)
  | sequenceNode (nodeVec : List Ptr)
  | switchNode (condition : Option Nat) (labelCaseVec : List (Finset Nat × Ptr))
      (isWeaved : Bool) (needStateVariable : Bool) (needLoopBreakDispatcher : Bool)
      (dKind : Option DispatcherKind)
  | switchBreakNode (parentSwitch : Option Ptr)
  | setNode (stateVariableValue : Nat) (dKind : DispatcherKind)
  deriving DecidableEq

/-- The fields shared by every `ASTNode` (ASTNode.h, lines 53-64) together
with the subclass data. -/
structure ASTNodeData where
  bb : Option Nat
  name : String
  successor : Option Ptr
  id : Nat
  variant : NodeVariant
  deriving DecidableEq

/-- Mirrors `ASTNode::getKind` (the `Kind` tag is determined by the concrete
subclass). -/
def ASTNodeData.kind (d : ASTNodeData) : NodeKind :=
  match d.variant with
  | .codeNode _ => .NK_Code
  | .breakNode _ => .NK_Break
  | .continueNode _ _ => .NK_Continue
  | .ifNode _ _ _ _ => .NK_If
  | .scsNode _ _ _ => .NK_Scs
  | .sequenceNode _ => .NK_List
  | .switchNode _ _ _ _ _ _ => .NK_Switch
  | .switchBreakNode _ => .NK_SwitchBreak
  | .setNode _ _ => .NK_Set

/-- Mirrors `ASTNode::getSuccessor` (ASTNode.h, line 107). -/
def ASTNodeData.getSuccessor (d : ASTNodeData) : Option Ptr := d.successor

/-- Mirrors `ASTNode::consumeSuccessor` (ASTNode.h, lines 109-113): returns
the old successor and the node with the successor cleared. -/
def ASTNodeData.consumeSuccessor (d : ASTNodeData) : Option Ptr × ASTNodeData :=
  (d.successor, { d with successor := none })

/-- Fatal failure modes of the C++ code: `revng_abort` on an unexpected
enum value, a firing `revng_assert`, and `std::map::at` on a missing key. -/
inductive AbortKind where
  | unexpectedKind
  | assertFailure
  | mapMissing
  deriving DecidableEq

/-! ## ScsNode operations -/

/-- Mirrors `ScsNode::setWhile` (ASTNode.h, lines 336-340): asserts the loop
type is still `WhileTrue`, then records the condition and becomes a `While`.
Only callable on an `ScsNode`, so any other variant is an abort. -/
def ASTNodeData.setWhile (d : ASTNodeData) (c : Ptr) : Except AbortKind ASTNodeData :=
  match d.variant with
  | .scsNode b lt _ =>
    if lt = .WhileTrue then
      .ok { d with variant := .scsNode b .While (some c) }
    else
      .error .assertFailure
  | _ => .error .assertFailure

/-- Mirrors `ScsNode::setDoWhile` (ASTNode.h, lines 342-346). -/
def ASTNodeData.setDoWhile (d : ASTNodeData) (c : Ptr) : Except AbortKind ASTNodeData :=
  match d.variant with
  | .scsNode b lt _ =>
    if lt = .WhileTrue then
      .ok { d with variant := .scsNode b .DoWhile (some c) }
    else
      .error .assertFailure
  | _ => .error .assertFailure

/-- Mirrors `ScsNode::getRelatedCondition` (ASTNode.h, lines 348-353): asserts
the loop type is `While` or `DoWhile` and that the related condition is
non-null. -/
def ASTNodeData.getRelatedCondition (d : ASTNodeData) : Except AbortKind Ptr :=
  match d.variant with
  | .scsNode _ lt rc =>
    if lt = .While ∨ lt = .DoWhile then
      match rc with
      | some c => .ok c
      | none => .error .assertFailure
    else
      .error .assertFailure
  | _ => .error .assertFailure

/-! ## SwitchNode operations -/

/-- Mirrors `SwitchNode::getDefault` (ASTNode.h, lines 629-644): scans all
cases; an empty label set marks the default; finding a second empty label
set fires `revng_assert(Default == nullptr)`. -/
def getDefaultGo (acc : Option Ptr) :
    List (Finset Nat × Ptr) → Except AbortKind (Option Ptr)
  | [] => .ok acc
  | (labelSet, succ) :: rest =>
    if labelSet = ∅ then
      if acc ≠ none then .error .assertFailure
      else getDefaultGo (some succ) rest
    else getDefaultGo acc rest

/-- Entry point of `SwitchNode::getDefault` on the case vector. -/
def getDefault (cases : List (Finset Nat × Ptr)) : Except AbortKind (Option Ptr) :=
  getDefaultGo none cases

/-- Mirrors `SwitchNode::hasDefault` (ASTNode.h, line 659):
`nullptr != getDefault()`. -/
def hasDefault (cases : List (Finset Nat × Ptr)) : Except AbortKind Bool :=
  (getDefault cases).map (fun d => d ≠ none)

/-- Mirrors `SwitchNode::removeDefault` (ASTNode.h, lines 646-657): removes
the first case whose label set is empty (and returns at once). -/
def removeDefault : List (Finset Nat × Ptr) → List (Finset Nat × Ptr)
  | [] => []
  | (labelSet, succ) :: rest =>
    if labelSet = ∅ then rest
    else (labelSet, succ) :: removeDefault rest

/-! ## SetNode construction -/

/-- Modelled from the spec: `BasicBlockNodeBB::Type` lives in
`BasicBlockNodeBB.h`, which is not among the sources; the vertex kinds are
taken from §3.1 of the specification. -/
inductive BBType where
  | Code
  | Empty
  | EntryDispatcher
  | ExitDispatcher
  | EntrySet
  | ExitSet
  | Collapsed
  | Tile
  deriving DecidableEq

/-- Modelled from the spec: the CFG vertex attributes of §3.1 that the
`ASTNode` constructors read (`BasicBlockNodeBB` is not among the sources). -/
structure BasicBlockNodeData where
  bbType : BBType
  stateVariableValue : Nat
  name : String
  weaved : Bool
  originalNode : Option Nat
  deriving DecidableEq

/-- Modelled from the spec: `BasicBlockNodeBB::isCode` holds of a `Code`
vertex (§3.1). -/
def BasicBlockNodeData.isCode (c : BasicBlockNodeData) : Bool :=
  c.bbType = .Code

/-- Mirrors the `SetNode` constructor (ASTNode.h, lines 510-522) on top of the
`ASTNode` base constructor (lines 72-76): the dispatcher type must be
`EntrySet` or `ExitSet`, anything else is `revng_abort("Unexpected
DispatcherKind")`; on abort no node is produced. -/
def mkSetNode (cfg : BasicBlockNodeData) (succ : Option Ptr) :
    Except AbortKind ASTNodeData :=
  match cfg.bbType with
  | .EntrySet =>
    .ok { bb := if cfg.isCode then cfg.originalNode else none
          name := cfg.name
          successor := succ
          id := 0
          variant := .setNode cfg.stateVariableValue .DK_Entry }
  | .ExitSet =>
    .ok { bb := if cfg.isCode then cfg.originalNode else none
          name := cfg.name
          successor := succ
          id := 0
          variant := .setNode cfg.stateVariableValue .DK_Exit }
  | _ => .error .unexpectedKind

/-- The node kinds handled by the dispatch of `ASTNode::updateASTNodesPointers`
(ASTNode.h, lines 748-785): the `case` labels of the `switch`.  Any kind
outside this set falls into `default: revng_abort("AST node type not
expected")` (lines 786-788). -/
def updateHandlesKind : NodeKind → Bool
  | .NK_If => true
  | .NK_Switch => true
  | .NK_Scs => true
  | .NK_Continue => true
  | .NK_SwitchBreak => true
  | .NK_Code => true
  | .NK_Break => true
  | .NK_Set => true
  | .NK_List => true

/-! ## Pointer update through a substitution map -/

/-- Redirect an optional node reference through the substitution map; a
non-null reference missing from the map is a failing `SubstitutionMap.at`. -/
def updOpt (M : Ptr → Option Ptr) : Option Ptr → Except AbortKind (Option Ptr)
  | none => .ok none
  | some r =>
    match M r with
    | some r' => .ok (some r')
    | none => .error .mapMissing

/-- Redirect every element of a reference list through the substitution map. -/
def updAll (M : Ptr → Option Ptr) : List Ptr → Except AbortKind (List Ptr)
  | [] => .ok []
  | r :: rs =>
    match M r with
    | some r' => (updAll M rs).map (r' :: ·)
    | none => .error .mapMissing

/-- Redirect the second components of the labeled cases through the map. -/
def updCases (M : Ptr → Option Ptr) :
    List (Finset Nat × Ptr) → Except AbortKind (List (Finset Nat × Ptr))
  | [] => .ok []
  | (ls, r) :: rs =>
    match M r with
    | some r' => (updCases M rs).map ((ls, r') :: ·)
    | none => .error .mapMissing

/-- Mirrors `ASTNode::updateASTNodesPointers` (ASTNode.h, lines 744-789).
The top-level dispatch and the `Continue` assertion
(`revng_assert(not Continue->hasComputation())`, line 767) are from the
source; the per-subclass bodies, whose definitions are not among the
sources, are modelled from the spec (§4.4): the references redirected
through the map are `If.then/else`, `Scs.body`, `Sequence.children`,
`Switch.cases[i].child` and `SwitchBreak.parent_switch`, besides the hybrid
successor handled by the dispatcher itself. -/
def ASTNodeData.updateASTNodesPointers (M : Ptr → Option Ptr) (d : ASTNodeData) :
    Except AbortKind ASTNodeData := do
  let succ ← updOpt M d.successor
  let v ←
    match d.variant with
    | .ifNode t e c w => do
      let t' ← updOpt M t
      let e' ← updOpt M e
      pure (NodeVariant.ifNode t' e' c w)
    | .switchNode c cs w nsv nlbd dk => do
      let cs' ← updCases M cs
      pure (NodeVariant.switchNode c cs' w nsv nlbd dk)
    | .scsNode b lt rc => do
      let b' ← updOpt M b
      pure (NodeVariant.scsNode b' lt rc)
    | .continueNode ci imp =>
      if ci.isSome then .error .assertFailure
      else pure (NodeVariant.continueNode ci imp)
    | .switchBreakNode ps => do
      let ps' ← updOpt M ps
      pure (NodeVariant.switchBreakNode ps')
    | .codeNode ir => pure (NodeVariant.codeNode ir)
    | .breakNode b => pure (NodeVariant.breakNode b)
    | .setNode sv dk => pure (NodeVariant.setNode sv dk)
    | .sequenceNode l => do
      let l' ← updAll M l
      pure (NodeVariant.sequenceNode l')
  pure { d with successor := succ, variant := v }

/-- The AST-node references of a node that `updateASTNodesPointers` redirects:
the hybrid successor plus the kind-specific references listed in §4.4. -/
def ASTNodeData.updateRefs (d : ASTNodeData) : List Ptr :=
  d.successor.toList ++
    match d.variant with
    | .ifNode t e _ _ => t.toList ++ e.toList
    | .scsNode b _ _ => b.toList
    | .sequenceNode l => l
    | .switchNode _ cs _ _ _ _ => cs.map (·.2)
    | .switchBreakNode ps => ps.toList
    | _ => []

/-- The pure effect of a successful `updateASTNodesPointers` on the subclass
payload: precisely the references of §4.4 are rewritten. -/
def remapVariant (σ : Ptr → Ptr) : NodeVariant → NodeVariant
  | .ifNode t e c w => .ifNode (t.map σ) (e.map σ) c w
  | .scsNode b lt rc => .scsNode (b.map σ) lt rc
  | .sequenceNode l => .sequenceNode (l.map σ)
  | .switchNode c cs w nsv nlbd dk =>
    .switchNode c (cs.map fun x => (x.1, σ x.2)) w nsv nlbd dk
  | .switchBreakNode ps => .switchBreakNode (ps.map σ)
  | v => v

/-- The pure effect of a successful `updateASTNodesPointers` on a node. -/
def remapData (σ : Ptr → Ptr) (d : ASTNodeData) : ASTNodeData :=
  { d with successor := d.successor.map σ, variant := remapVariant σ d.variant }

/-- Modelled from the spec: pass 2 of the deep clone (§4.5, §9) retargets
every intra-subtree cross link of a clone's payload through the old-to-new
substitution map — the tree children and also the back references, which
"are keys into the substitution map": `SwitchBreak.parent_switch`,
`Continue.computation_if` and, explicitly per §9, "`related_condition` on
an `Scs` is remapped through the same map". -/
def remapAllVariant (σ : Ptr → Ptr) : NodeVariant → NodeVariant
  | .codeNode ir => .codeNode ir
  | .breakNode b => .breakNode b
  | .continueNode ci imp => .continueNode (ci.map σ) imp
  | .ifNode t e c w => .ifNode (t.map σ) (e.map σ) c w
  | .scsNode b lt rc => .scsNode (b.map σ) lt (rc.map σ)
  | .sequenceNode l => .sequenceNode (l.map σ)
  | .switchNode c cs w nsv nlbd dk =>
    .switchNode c (cs.map fun x => (x.1, σ x.2)) w nsv nlbd dk
  | .switchBreakNode ps => .switchBreakNode (ps.map σ)
  | .setNode sv dk => .setNode sv dk

/-- Pass 2 of the deep clone on a whole node: the hybrid successor and every
reference of the payload are redirected through the map (§4.5, §9). -/
def remapAllRefs (σ : Ptr → Ptr) (d : ASTNodeData) : ASTNodeData :=
  { d with successor := d.successor.map σ, variant := remapAllVariant σ d.variant }

/-! ## The heap of AST nodes -/

/-- A heap of AST nodes: each allocated address holds the node's data. -/
abbrev Heap := Ptr → Option ASTNodeData

/-- Overwrite the node stored at one address. -/
def writeH (h : Heap) (p : Ptr) (d : ASTNodeData) : Heap :=
  fun q => if q = p then some d else h q

theorem writeH_same (h : Heap) (p : Ptr) (d : ASTNodeData) :
    writeH h p d p = some d := by
  simp [writeH]

theorem writeH_other (h : Heap) (p : Ptr) (d : ASTNodeData) (q : Ptr)
    (hq : q ≠ p) : writeH h p d q = h q := by
  simp [writeH, hq]

/-! ## SequenceNode::addNode and the hybrid successor chain -/

/-- Mirrors `SequenceNode::addNode` (ASTNode.h, lines 394-399) acting on the
heap: `s` is the address of the sequence node, `p` the node being added.
The node is pushed into the sequence's vector; if it has a non-null
successor, the successor is consumed (cleared in the heap) and added in
turn.  The C++ recursion is modelled with fuel; `none` signals a dangling
pointer, a non-sequence `this`, or exhausted fuel. -/
def addNodeGo (fuel : Nat) (h : Heap) (s p : Ptr) : Option Heap :=
  match fuel with
  | 0 => none
  | fuel + 1 =>
    match h s, h p with
    | some ds, some dp =>
      match ds.variant with
      | .sequenceNode vec =>
        let h₁ := writeH h s { ds with variant := .sequenceNode (vec ++ [p]) }
        match dp.successor with
        | none => some h₁
        | some nxt =>
          let h₂ := writeH h₁ p { dp with successor := none }
          addNodeGo fuel h₂ s nxt
      | _ => none
    | _, _ => none

/-- The chain of hybrid successor links starting at `p`: `p`, then the chain
starting at `p`'s successor.  `none` when a link dangles or the fuel runs
out before the chain ends. -/
def succChain (fuel : Nat) (h : Heap) (p : Ptr) : Option (List Ptr) :=
  match fuel with
  | 0 => none
  | fuel + 1 =>
    match h p with
    | none => none
    | some d =>
      match d.successor with
      | none => some [p]
      | some q => (succChain fuel h q).map (p :: ·)

/-! ## Structural equality

The dispatch of `ASTNode::isEqual` (ASTNode.h, lines 791-816) and the inline
`nodeIsEqual` of `ContinueNode`, `BreakNode` and `SwitchBreakNode` (lines
438-440, 475-477, 695-697: a kind check only) are from the source; the
remaining `nodeIsEqual` bodies are not among the sources and are modelled
from the spec (§4.5): equality compares the kind, the attribute fields
(label sets, dispatcher kind, loop type, weaved flag, state value) and
recurses into children, ignoring IDs and names. -/

/-- The tree children that structural equality recurses into, in order. -/
def childRefs (d : ASTNodeData) : List (Option Ptr) :=
  match d.variant with
  | .ifNode t e _ _ => [t, e]
  | .scsNode b _ _ => [b]
  | .sequenceNode l => l.map some
  | .switchNode _ cs _ _ _ _ => cs.map (fun c => some c.2)
  | _ => []

/-- The non-null tree children of a node. -/
def childPtrs (d : ASTNodeData) : List Ptr :=
  (childRefs d).filterMap id

/-- Kind and attribute comparison of structural equality: same subclass, and
the §4.5 attribute fields agree (weaved flag on `If` and `Switch`, loop type
on `Scs`, label sets and dispatcher kind on `Switch`, state value and
dispatcher kind on `Set`). -/
def attrsEq (d₁ d₂ : ASTNodeData) : Bool :=
  match d₁.variant, d₂.variant with
  | .codeNode _, .codeNode _ => true
  | .breakNode _, .breakNode _ => true
  | .continueNode _ _, .continueNode _ _ => true
  | .switchBreakNode _, .switchBreakNode _ => true
  | .ifNode _ _ _ w₁, .ifNode _ _ _ w₂ => w₁ = w₂
  | .scsNode _ t₁ _, .scsNode _ t₂ _ => t₁ = t₂
  | .sequenceNode _, .sequenceNode _ => true
  | .switchNode _ cs₁ w₁ _ _ k₁, .switchNode _ cs₂ w₂ _ _ k₂ =>
    w₁ = w₂ ∧ k₁ = k₂ ∧ cs₁.map (·.1) = cs₂.map (·.1)
  | .setNode v₁ k₁, .setNode v₂ k₂ => v₁ = v₂ ∧ k₁ = k₂
  | _, _ => false

/-- Recursive comparison of the child lists, pairwise in order. -/
def childrenEqB (eq : Ptr → Ptr → Bool) (d₁ d₂ : ASTNodeData) : Bool :=
  ((childRefs d₁).length = (childRefs d₂).length : Bool) &&
    ((childRefs d₁).zip (childRefs d₂)).all fun pr =>
      match pr with
      | (none, none) => true
      | (some a, some b) => eq a b
      | _ => false

/-- Structural equality `this->isEqual(other)` on heap addresses, with fuel
bounding the recursion depth (the C++ recursion is over a finite tree). -/
def isEqual (h : Heap) : Nat → Ptr → Ptr → Bool
  | 0, _, _ => false
  | fuel + 1, p, q =>
    match h p, h q with
    | some d₁, some d₂ => attrsEq d₁ d₂ && childrenEqB (isEqual h fuel) d₁ d₂
    | _, _ => false

/-- The child structure below `p` unwinds completely within `fuel` levels.
This is the termination measure of the C++ recursion of `isEqual`. -/
def depthOk (h : Heap) : Nat → Ptr → Bool
  | 0, _ => false
  | fuel + 1, p =>
    match h p with
    | none => false
    | some d => (childPtrs d).all (depthOk h fuel)

/-! ## Correspondence up to IDs and names -/

/-- Two subclass payloads correspond under the address translation `σ`:
every field agrees except that node references on the right are the
translations of those on the left. -/
def variantMatch (σ : Ptr → Ptr) : NodeVariant → NodeVariant → Bool
  | .codeNode ir, .codeNode ir' => ir' = ir
  | .breakNode b, .breakNode b' => b' = b
  | .continueNode ci imp, .continueNode ci' imp' => ci' = ci.map σ ∧ imp' = imp
  | .ifNode t e c w, .ifNode t' e' c' w' =>
    t' = t.map σ ∧ e' = e.map σ ∧ c' = c ∧ w' = w
  | .scsNode b lt rc, .scsNode b' lt' rc' =>
    b' = b.map σ ∧ lt' = lt ∧ rc' = rc.map σ
  | .sequenceNode l, .sequenceNode l' => l' = l.map σ
  | .switchNode c cs w nsv nlbd dk, .switchNode c' cs' w' nsv' nlbd' dk' =>
    c' = c ∧ cs' = cs.map (fun x => (x.1, σ x.2)) ∧ w' = w ∧ nsv' = nsv ∧
      nlbd' = nlbd ∧ dk' = dk
  | .switchBreakNode ps, .switchBreakNode ps' => ps' = ps.map σ
  | .setNode v k, .setNode v' k' => v' = v ∧ k' = k
  | _, _ => false

/-- The node `d'` is the node `d` with every field equal except possibly the
ID and the name, and with node references translated by `σ`: the two nodes
differ only in ID or name. -/
def matchData (σ : Ptr → Ptr) (d d' : ASTNodeData) : Bool :=
  (d'.bb = d.bb) && (d'.successor = d.successor.map σ) &&
    variantMatch σ d.variant d'.variant

/-- The nodes at `r` and `σ r` are both allocated and correspond under `σ`. -/
def matchesAt (h : Heap) (σ : Ptr → Ptr) (r : Ptr) : Bool :=
  match h r, h (σ r) with
  | some d, some d' => matchData σ d d'
  | _, _ => false

/-- The set `S` is closed under the tree children of its nodes. -/
def childClosed (h : Heap) (S : List Ptr) : Bool :=
  S.all fun r =>
    match h r with
    | some d => (childPtrs d).all (· ∈ S)
    | none => true

/-! ## Reachability -/

/-- Every AST-node reference held by a node: the hybrid successor and all
subclass reference fields, including the back references
(`SwitchBreak.parent_switch`, `Scs.related_condition`,
`Continue.computation_if`). -/
def ASTNodeData.allRefs (d : ASTNodeData) : List Ptr :=
  d.successor.toList ++
    match d.variant with
    | .continueNode ci _ => ci.toList
    | .ifNode t e _ _ => t.toList ++ e.toList
    | .scsNode b _ rc => b.toList ++ rc.toList
    | .sequenceNode l => l
    | .switchNode _ cs _ _ _ _ => cs.map (·.2)
    | .switchBreakNode ps => ps.toList
    | _ => []

/-- The references held by the node stored at an address. -/
def refsOf (h : Heap) (q : Ptr) : List Ptr :=
  match h q with
  | some d => d.allRefs
  | none => []

/-- Append the elements of `new` that are not yet in `s`, keeping order. -/
def addMissing {α : Type} [DecidableEq α] (s new : List α) : List α :=
  new.foldl (fun acc q => if q ∈ acc then acc else acc ++ [q]) s

/-- One expansion step of reachability: add every reference of a node
already in the set. -/
def stepR (h : Heap) (s : List Ptr) : List Ptr :=
  addMissing s (s.flatMap (refsOf h))

/-- The addresses reachable from `p` in at most `fuel` expansion steps,
`p` first. -/
def reachList (h : Heap) (fuel : Nat) (p : Ptr) : List Ptr :=
  (stepR h)^[fuel] [p]

/-! ## Deep clone

Modelled from the spec: the deep-clone driver lives in the AST tree code,
which is not among the sources; §4.5 specifies it as a deep copy that
reassigns fresh IDs and produces an old-to-new substitution map through
which cross links are retargeted in a second pass.  Pass 1 shallow-copies
every node reachable from the root — the per-subclass `Clone()` copy
constructors of ASTNode.h — placing the copy of the i-th reachable node at
address `fresh + i` with ID `freshId + i`; pass 2 redirects every
reference of each clone through the map (`remapAllRefs`), including the
back references `parent_switch`, `related_condition` and `computation_if`
(§4.5, §9).  A reference outside the map is an unresolved
substitution-map lookup, fatal per §7, so the driver then produces
nothing.  Since pass 2 rewrites a clone using only its own fields and the
map, the resulting heap is presented pointwise. -/

/-- Position of the first occurrence of an element in a list. -/
def idxOf : List Ptr → Ptr → Option Nat
  | [], _ => none
  | a :: as, q => if q = a then some 0 else (idxOf as q).map (· + 1)

/-- The old-to-new substitution map of the clone: the i-th reachable node
maps to address `fresh + i`. -/
def cloneMap (R : List Ptr) (fresh : Nat) : Ptr → Option Ptr :=
  fun q => (idxOf R q).map (fresh + ·)

/-- Pass 1 of the clone: the shallow copy of the i-th node of `R` (its
`Clone()` copy constructor) stored at `fresh + i`, with the fresh ID
`freshId + i`. -/
def cloneHeap1 (h : Heap) (R : List Ptr) (fresh freshId : Nat) : Heap :=
  fun q =>
    if fresh ≤ q ∧ q - fresh < R.length then
      (h (R.getD (q - fresh) 0)).map (fun d => { d with id := freshId + (q - fresh) })
    else h q

/-- Pass 2 of the clone: every reference of each clone — children, hybrid
successor and back references — is redirected through the substitution map
(§4.5, §9). -/
def cloneHeap2 (h : Heap) (R : List Ptr) (fresh freshId : Nat) : Heap :=
  fun q =>
    if fresh ≤ q ∧ q - fresh < R.length then
      (cloneHeap1 h R fresh freshId q).map
        (remapAllRefs fun r => ((cloneMap R fresh) r).getD r)
    else cloneHeap1 h R fresh freshId q

/-- Every reachable node is allocated and every reference it holds is a key
of the substitution map; a missing key would be an unresolved
substitution-map lookup, fatal per §7. -/
def cloneOk (h : Heap) (M : Ptr → Option Ptr) (R : List Ptr) : Bool :=
  R.all fun q =>
    match h q with
    | some d => d.allRefs.all (fun r => (M r).isSome)
    | none => false

/-- The deep clone of the subtree rooted at `p`: allocates the clones at
`fresh`, `fresh + 1`, …, gives them IDs `freshId`, `freshId + 1`, …, and
returns the updated heap together with the address of the clone of `p`. -/
def deepClone (h : Heap) (fuel : Nat) (p : Ptr) (fresh freshId : Nat) :
    Option (Heap × Ptr) :=
  let R := reachList h fuel p
  if cloneOk h (cloneMap R fresh) R then
    some (cloneHeap2 h R fresh freshId, fresh)
  else none

/-! ## The combing pass on a region CFG

Modelled from the spec: `RegionCFG`, its `inflate` member and
`isTopologicallyEquivalent` live in `RegionCFGTree[Impl].h`, which is not
among the sources; only their test driver (tests/Unit/CombingPass.cpp) is.
The model follows §4.1.2: inflation repeatedly picks, in preorder, a
problematic vertex — one reached from different dominator subtrees of the
entry by a premature merge, i.e. not at a vertex all paths must pass anyway
(a postdominator of the entry) — and clones it together with its dominated
subgraph once per extra predecessor partition, the partition with the
smallest entry-preorder number keeping the original; it stops at a fixed
point, and exceeding the sanity bound of 2·|V|² iterations is fatal. -/

/-- A graph read from a `.dot` file: vertex list, the `entry` root and the
edge list. -/
structure DotGraph where
  vertices : List Nat
  entry : Nat
  edges : List (Nat × Nat)
  deriving DecidableEq

/-- Ordered successors of a vertex. -/
def successors (g : DotGraph) (v : Nat) : List Nat :=
  (g.edges.filter (fun e => e.1 = v)).map (·.2)

/-- Ordered predecessors of a vertex. -/
def predecessors (g : DotGraph) (v : Nat) : List Nat :=
  (g.edges.filter (fun e => e.2 = v)).map (·.1)

/-- One expansion step of reachability that never enters `avoid`. -/
def stepAvoid (g : DotGraph) (avoid : Nat) (s : List Nat) : List Nat :=
  addMissing s ((s.flatMap (successors g)).filter (· ≠ avoid))

/-- The vertices reachable from `src` along paths that avoid `avoid`. -/
def reachAvoid (g : DotGraph) (src avoid : Nat) : List Nat :=
  (stepAvoid g avoid)^[g.vertices.length] (if src = avoid then [] else [src])

/-- `v` dominates `u`: every path from the entry to `u` passes through `v`. -/
def dominates (g : DotGraph) (v u : Nat) : Bool :=
  v = u ∨ u ∉ reachAvoid g g.entry v

/-- `v` postdominates `u`: every path from `u` to an exit (a vertex with no
successors) passes through `v`. -/
def postDominates (g : DotGraph) (v u : Nat) : Bool :=
  v = u ∨ (reachAvoid g u v).all (fun w => ¬ (successors g w = []))

/-- `c` is a child of the entry in the dominator tree: its only dominators
are itself and the entry. -/
def isEntryChild (g : DotGraph) (c : Nat) : Bool :=
  c ∈ g.vertices ∧ c ≠ g.entry ∧
    g.vertices.all (fun v => ¬ (dominates g v c) ∨ v = c ∨ v = g.entry)

/-- The dominator subtree of the entry that `u` lies in, named by the entry
child rooting it (`none` for the entry itself). -/
def entryClass (g : DotGraph) (u : Nat) : Option Nat :=
  (g.vertices.filter (fun c => isEntryChild g c && dominates g c u)).head?

/-- DFS preorder visit from the entry. -/
def preorderGo (g : DotGraph) : Nat → List Nat → List Nat → List Nat
  | 0, visited, _ => visited
  | _ + 1, visited, [] => visited
  | fuel + 1, visited, v :: rest =>
    if v ∈ visited then preorderGo g fuel visited rest
    else preorderGo g fuel (visited ++ [v]) (successors g v ++ rest)

/-- DFS preorder of the graph from the entry. -/
def preorder (g : DotGraph) : List Nat :=
  preorderGo g ((g.vertices.length + 2) * (g.edges.length + 2)) [] [g.entry]

/-- A vertex is problematic when paths from different dominator subtrees of
the entry merge at it prematurely — at a vertex that is not a postdominator
of the entry (§4.1.2, step 1). -/
def problematic (g : DotGraph) (v : Nat) : Bool :=
  ((predecessors g v).map (entryClass g)).any (fun c₁ =>
    ((predecessors g v).map (entryClass g)).any (fun c₂ => c₁ ≠ c₂)) &&
    !(postDominates g v g.entry)

/-- Fresh name of a vertex of the cloned dominated subgraph `D`. -/
def renameIn (D : List Nat) (base x : Nat) : Nat :=
  match idxOf D x with
  | some i => base + i
  | none => x

/-- Clone the problematic vertex `v` and its dominated subgraph for one
predecessor partition (§4.1.2, step 2): the partition's incoming edges are
redirected to a fresh copy of `v`; the copied subgraph keeps its internal
and outgoing edges. -/
def cloneForGroup (g : DotGraph) (v : Nat) (key : Option Nat) : DotGraph :=
  let D := g.vertices.filter (fun u => dominates g v u)
  let base := g.vertices.foldl max 0 + 1
  { vertices := g.vertices ++ D.map (renameIn D base)
    entry := g.entry
    edges :=
      g.edges.map (fun e =>
        if e.2 = v ∧ entryClass g e.1 = key ∧ e.1 ∉ D then
          (e.1, renameIn D base v)
        else e) ++
      (g.edges.filter (fun e => e.1 ∈ D)).map (fun e =>
        (renameIn D base e.1, renameIn D base e.2)) }

/-- Preorder rank of a predecessor partition, the entry's own partition
first. -/
def keyRank (g : DotGraph) (key : Option Nat) : Nat :=
  match key with
  | some c => (idxOf (preorder g) c).getD (g.vertices.length + 1)
  | none => 0

/-- The partition with the smallest entry-preorder number: it keeps the
original vertex. -/
def minKey (g : DotGraph) (keys : List (Option Nat)) : Option (Option Nat) :=
  keys.foldl
    (fun acc k =>
      match acc with
      | none => some k
      | some k₀ => if keyRank g k < keyRank g k₀ then some k else acc)
    none

/-- The inflation loop: repeat until no vertex is problematic; process
candidates in preorder; running out of the sanity bound is a fatal error
(`none`). -/
def inflateGo : Nat → DotGraph → Option DotGraph
  | 0, _ => none
  | fuel + 1, g =>
    match (preorder g).filter (problematic g) with
    | [] => some g
    | v :: _ =>
      let keys := addMissing [] ((predecessors g v).map (entryClass g))
      let keep := (minKey g keys).getD none
      inflateGo fuel ((keys.filter (· ≠ keep)).foldl (fun acc k => cloneForGroup acc v k) g)

/-- Mirrors `RegionCFG::inflate` as specified in §4.1.2, with the sanity
bound 2·|V|² of §4.1.2 (Failure). -/
def inflate (g : DotGraph) : Option DotGraph :=
  inflateGo (2 * g.vertices.length * g.vertices.length + 1) g

/-- Apply a vertex correspondence given as a pairing list. -/
def applyMap (m : List (Nat × Nat)) (x : Nat) : Nat :=
  match m.find? (fun pr => pr.1 = x) with
  | some pr => pr.2
  | none => x

/-- Modelled from the spec: `RegionCFG::isTopologicallyEquivalent` is not
among the sources; topological equivalence is a vertex correspondence that
preserves the entry and the edge relation in both directions. -/
def isTopologicallyEquivalent (g₁ g₂ : DotGraph) : Bool :=
  (g₁.vertices.length = g₂.vertices.length) &&
    g₂.vertices.permutations.any (fun perm =>
      let m := g₁.vertices.zip perm
      (applyMap m g₁.entry = g₂.entry) &&
        g₁.edges.all (fun e => (applyMap m e.1, applyMap m e.2) ∈ g₂.edges) &&
        g₂.edges.all (fun e => e ∈ g₁.edges.map (fun e' => (applyMap m e'.1, applyMap m e'.2))))

/-- Modelled from the spec: the test input `trivial.dot` is not among the
sources; §8 S1 describes the trivial graph as entry→exit. -/
def trivialDot : DotGraph :=
  { vertices := [0, 1], entry := 0, edges := [(0, 1)] }

/-- Modelled from the spec: the test input `simple.dot` is not among the
sources; §8 S2 describes the simple diamond Entry→{A,B}, A→Join, B→Join,
Join→Exit. -/
def simpleDot : DotGraph :=
  { vertices := [0, 1, 2, 3, 4]
    entry := 0
    edges := [(0, 1), (0, 2), (1, 3), (2, 3), (3, 4)] }

/-! ## Concrete heaps used to instantiate the theorems -/

/-- A sequence node at address 0 and a two-node hybrid successor chain
1 → 2. -/
def chainHeap : Heap := fun q =>
  if q = 0 then some ⟨none, "seq", none, 0, .sequenceNode []⟩
  else if q = 1 then some ⟨none, "a", some 2, 1, .codeNode false⟩
  else if q = 2 then some ⟨none, "b", none, 2, .codeNode false⟩
  else none

/-- Code nodes at 0 and 1 that differ only in ID and name, and set nodes at
2 and 3 that differ in the state variable value. -/
def eqHeap : Heap := fun q =>
  if q = 0 then some ⟨some 4, "a", none, 0, .codeNode false⟩
  else if q = 1 then some ⟨some 4, "b", none, 7, .codeNode false⟩
  else if q = 2 then some ⟨none, "s2", none, 2, .setNode 0 .DK_Entry⟩
  else if q = 3 then some ⟨none, "s3", none, 3, .setNode 1 .DK_Entry⟩
  else none

/-- Every node of `R` is allocated with an ID below `bound`. -/
def idsBelow (h : Heap) (R : List Ptr) (bound : Nat) : Bool :=
  R.all fun q =>
    match h q with
    | some d => d.id < bound
    | none => false

/-- A subtree to clone, rooted at the sequence node 7: a dispatcher switch
at 0 whose case child is a switch break pointing back to it (with a code
successor at 3), and a do-while `Scs` at 4 holding a related condition at 6
whose body is a `Continue` at 5 holding the same computation `IfNode`. -/
def cloneDemoHeap : Heap := fun q =>
  if q = 0 then
    some ⟨none, "switch", some 3, 1,
      .switchNode none [({0}, 1)] false false false (some .DK_Entry)⟩
  else if q = 1 then some ⟨none, "sb", none, 2, .switchBreakNode (some 0)⟩
  else if q = 3 then some ⟨none, "code", none, 3, .codeNode false⟩
  else if q = 4 then
    some ⟨none, "scs", none, 4, .scsNode (some 5) .DoWhile (some 6)⟩
  else if q = 5 then
    some ⟨none, "continue", none, 5, .continueNode (some 6) false⟩
  else if q = 6 then some ⟨none, "if", none, 6, .ifNode none none none false⟩
  else if q = 7 then some ⟨none, "seq", none, 7, .sequenceNode [0, 4]⟩
  else none

/-! # Theorems -/

/-! ## C10: consumeSuccessor -/

/-- C10: for every AST node, `consumeSuccessor()` returns the value
`getSuccessor()` had before the call, afterwards `getSuccessor()` returns
null, and every other field of the node — kind, ID, name, origin basic
block and all variant-specific children and attributes — is unchanged. -/
theorem consumeSuccessor_spec (d : ASTNodeData) :
    d.consumeSuccessor.1 = d.getSuccessor ∧
    d.consumeSuccessor.2.getSuccessor = none ∧
    d.consumeSuccessor.2.kind = d.kind ∧
    d.consumeSuccessor.2.id = d.id ∧
    d.consumeSuccessor.2.name = d.name ∧
    d.consumeSuccessor.2.bb = d.bb ∧
    d.consumeSuccessor.2.variant = d.variant := by
  simp [ASTNodeData.consumeSuccessor, ASTNodeData.getSuccessor, ASTNodeData.kind]

/-! ## C7: Scs loop type and related condition -/

/-- C7: `setWhile`/`setDoWhile` succeed exactly on an `ScsNode` whose loop
type is still `WhileTrue`, after which `getRelatedCondition` returns the
recorded condition without failing; `getRelatedCondition` on an `ScsNode`
whose loop type is `WhileTrue`, or whose related condition is null, is an
assertion failure. -/
theorem scs_related_condition_spec :
    (∀ (d : ASTNodeData) (c : Ptr) (d' : ASTNodeData), d.setWhile c = .ok d' →
      (∃ b rc, d.variant = .scsNode b .WhileTrue rc) ∧
        d'.getRelatedCondition = .ok c) ∧
    (∀ (d : ASTNodeData) (c : Ptr) (d' : ASTNodeData), d.setDoWhile c = .ok d' →
      (∃ b rc, d.variant = .scsNode b .WhileTrue rc) ∧
        d'.getRelatedCondition = .ok c) ∧
    (∀ (d : ASTNodeData) (b : Option Ptr) (rc : Option Ptr),
      d.variant = .scsNode b .WhileTrue rc →
        d.getRelatedCondition = .error .assertFailure) ∧
    (∀ (d : ASTNodeData) (b : Option Ptr) (lt : ScsType),
      d.variant = .scsNode b lt none →
        d.getRelatedCondition = .error .assertFailure) := by
  refine ⟨?_, ?_, ?_, ?_⟩
  · intro d c d' hok
    unfold ASTNodeData.setWhile at hok
    match hv : d.variant with
    | .scsNode b lt rc =>
      rw [hv] at hok
      by_cases hlt : lt = .WhileTrue
      · subst hlt
        simp only [if_pos rfl] at hok
        cases hok
        exact ⟨⟨b, rc, rfl⟩, by simp [ASTNodeData.getRelatedCondition]⟩
      · simp [if_neg hlt] at hok
    | .codeNode ir => rw [hv] at hok; cases hok
    | .breakNode x => rw [hv] at hok; cases hok
    | .continueNode x y => rw [hv] at hok; cases hok
    | .ifNode x y z w => rw [hv] at hok; cases hok
    | .sequenceNode x => rw [hv] at hok; cases hok
    | .switchNode x y z u v w => rw [hv] at hok; cases hok
    | .switchBreakNode x => rw [hv] at hok; cases hok
    | .setNode x y => rw [hv] at hok; cases hok
  · intro d c d' hok
    unfold ASTNodeData.setDoWhile at hok
    match hv : d.variant with
    | .scsNode b lt rc =>
      rw [hv] at hok
      by_cases hlt : lt = .WhileTrue
      · subst hlt
        simp only [if_pos rfl] at hok
        cases hok
        exact ⟨⟨b, rc, rfl⟩, by simp [ASTNodeData.getRelatedCondition]⟩
      · simp [if_neg hlt] at hok
    | .codeNode ir => rw [hv] at hok; cases hok
    | .breakNode x => rw [hv] at hok; cases hok
    | .continueNode x y => rw [hv] at hok; cases hok
    | .ifNode x y z w => rw [hv] at hok; cases hok
    | .sequenceNode x => rw [hv] at hok; cases hok
    | .switchNode x y z u v w => rw [hv] at hok; cases hok
    | .switchBreakNode x => rw [hv] at hok; cases hok
    | .setNode x y => rw [hv] at hok; cases hok
  · intro d b rc hv
    simp [ASTNodeData.getRelatedCondition, hv]
  · intro d b lt hv
    cases lt <;> simp [ASTNodeData.getRelatedCondition, hv]

/-- Witness for C7 at a concrete `Scs` node. -/
theorem scs_related_condition_spec_witness :
    ((∃ b rc, (⟨none, "loop", none, 0, .scsNode (some 2) .WhileTrue none⟩ :
        ASTNodeData).variant = .scsNode b .WhileTrue rc) ∧
      (⟨none, "loop", none, 0, .scsNode (some 2) .While (some 5)⟩ :
        ASTNodeData).getRelatedCondition = .ok 5) ∧
    (⟨none, "loop", none, 0, .scsNode (some 2) .WhileTrue none⟩ :
      ASTNodeData).getRelatedCondition = .error .assertFailure :=
  ⟨scs_related_condition_spec.1
      ⟨none, "loop", none, 0, .scsNode (some 2) .WhileTrue none⟩ 5 _ rfl,
    scs_related_condition_spec.2.2.1
      ⟨none, "loop", none, 0, .scsNode (some 2) .WhileTrue none⟩ (some 2) none rfl⟩

/-! ## C8: aborts on unexpected kinds -/

/-- C8: constructing a `SetNode` from a CFG node whose dispatcher type is
neither `EntrySet` nor `ExitSet` is `revng_abort`, producing no node at
all; the kind dispatch of `updateASTNodesPointers` handles every
`NodeKind`, so a node kind outside the handled set — which would fall into
its `default: revng_abort` arm — cannot occur. -/
theorem unexpected_kind_aborts :
    (∀ (cfg : BasicBlockNodeData) (succ : Option Ptr),
      cfg.bbType ≠ .EntrySet → cfg.bbType ≠ .ExitSet →
        mkSetNode cfg succ = .error .unexpectedKind) ∧
    (∀ k : NodeKind, updateHandlesKind k = true) := by
  constructor
  · intro cfg succ h₁ h₂
    unfold mkSetNode
    match hb : cfg.bbType with
    | .EntrySet => exact absurd hb h₁
    | .ExitSet => exact absurd hb h₂
    | .Code => rfl
    | .Empty => rfl
    | .EntryDispatcher => rfl
    | .ExitDispatcher => rfl
    | .Collapsed => rfl
    | .Tile => rfl
  · intro k
    cases k <;> rfl

/-- Witness for C8 at a concrete non-Set dispatcher type. -/
theorem unexpected_kind_aborts_witness :
    mkSetNode ⟨.Code, 0, "bb", false, some 1⟩ none = .error .unexpectedKind :=
  unexpected_kind_aborts.1 ⟨.Code, 0, "bb", false, some 1⟩ none
    (by decide) (by decide)

/-! ## C4: the default case of a switch -/

theorem getDefaultGo_clean (acc : Option Ptr) (l : List (Finset Nat × Ptr))
    (hl : ∀ c ∈ l, c.1 ≠ ∅) : getDefaultGo acc l = .ok acc := by
  induction l with
  | nil => rfl
  | cons c rest ih =>
    obtain ⟨ls, s⟩ := c
    have hne : ls ≠ ∅ := hl (ls, s) (by simp)
    simp only [getDefaultGo, if_neg hne]
    exact ih fun c hc => hl c (by simp [hc])

theorem getDefaultGo_append_clean (acc : Option Ptr) (l₁ rest : List (Finset Nat × Ptr))
    (hl : ∀ c ∈ l₁, c.1 ≠ ∅) :
    getDefaultGo acc (l₁ ++ rest) = getDefaultGo acc rest := by
  induction l₁ with
  | nil => rfl
  | cons c l ih =>
    obtain ⟨ls, s⟩ := c
    have hne : ls ≠ ∅ := hl (ls, s) (by simp)
    simp only [List.cons_append, getDefaultGo, if_neg hne]
    exact ih fun c hc => hl c (by simp [hc])

theorem removeDefault_clean (l : List (Finset Nat × Ptr))
    (hl : ∀ c ∈ l, c.1 ≠ ∅) : removeDefault l = l := by
  induction l with
  | nil => rfl
  | cons c rest ih =>
    obtain ⟨ls, s⟩ := c
    have hne : ls ≠ ∅ := hl (ls, s) (by simp)
    simp only [removeDefault, if_neg hne]
    rw [ih fun c hc => hl c (by simp [hc])]

theorem removeDefault_append_clean (l₁ rest : List (Finset Nat × Ptr))
    (hl : ∀ c ∈ l₁, c.1 ≠ ∅) :
    removeDefault (l₁ ++ rest) = l₁ ++ removeDefault rest := by
  induction l₁ with
  | nil => rfl
  | cons c l ih =>
    obtain ⟨ls, s⟩ := c
    have hne : ls ≠ ∅ := hl (ls, s) (by simp)
    simp only [List.cons_append, removeDefault, if_neg hne, List.append_eq]
    rw [ih fun c hc => hl c (by simp [hc])]

/-- C4: on a switch whose case list has at most one empty-label case (the
two shapes below cover exactly the invariant), `getDefault` returns the
child of the unique empty-label case when one exists and null otherwise,
without firing its internal assertion; `hasDefault` is true exactly when
such a case exists; and `removeDefault` removes exactly that case. -/
theorem switch_default_spec (l₁ l₂ : List (Finset Nat × Ptr)) (s : Ptr)
    (h₁ : ∀ c ∈ l₁, c.1 ≠ ∅) (h₂ : ∀ c ∈ l₂, c.1 ≠ ∅) :
    (getDefault (l₁ ++ (∅, s) :: l₂) = .ok (some s) ∧
      hasDefault (l₁ ++ (∅, s) :: l₂) = .ok true ∧
      removeDefault (l₁ ++ (∅, s) :: l₂) = l₁ ++ l₂) ∧
    (getDefault (l₁ ++ l₂) = .ok none ∧
      hasDefault (l₁ ++ l₂) = .ok false ∧
      removeDefault (l₁ ++ l₂) = l₁ ++ l₂) := by
  have hget₁ : getDefault (l₁ ++ (∅, s) :: l₂) = .ok (some s) := by
    unfold getDefault
    rw [getDefaultGo_append_clean none l₁ _ h₁]
    have hstep : getDefaultGo none ((∅, s) :: l₂) = getDefaultGo (some s) l₂ := by
      simp [getDefaultGo]
    rw [hstep]
    exact getDefaultGo_clean (some s) l₂ h₂
  have hget₂ : getDefault (l₁ ++ l₂) = .ok none := by
    unfold getDefault
    rw [getDefaultGo_append_clean none l₁ _ h₁]
    exact getDefaultGo_clean none l₂ h₂
  refine ⟨⟨hget₁, ?_, ?_⟩, hget₂, ?_, ?_⟩
  · simp [hasDefault, hget₁, Except.map]
  · rw [removeDefault_append_clean l₁ _ h₁]
    simp [removeDefault]
  · simp [hasDefault, hget₂, Except.map]
  · rw [removeDefault_append_clean l₁ _ h₁, removeDefault_clean l₂ h₂]

/-- Witness for C4 on a concrete case list with one default. -/
theorem switch_default_spec_witness :
    (getDefault [({3}, 1), (∅, 9), ({4}, 2)] = .ok (some 9) ∧
      hasDefault [({3}, 1), (∅, 9), ({4}, 2)] = .ok true ∧
      removeDefault [({3}, 1), (∅, 9), ({4}, 2)] = [({3}, 1), ({4}, 2)]) ∧
    (getDefault [({3}, 1), ({4}, 2)] = .ok none ∧
      hasDefault [({3}, 1), ({4}, 2)] = .ok false ∧
      removeDefault [({3}, 1), ({4}, 2)] = [({3}, 1), ({4}, 2)]) :=
  switch_default_spec [({3}, 1)] [({4}, 2)] 9 (by decide) (by decide)

/-! ## C2: sequence construction -/

theorem succ_none_eta (d : ASTNodeData) (hd : d.successor = none) :
    { d with successor := none } = d := by
  cases d
  simp_all

theorem succChain_congr (f : Nat) (h₁ h₂ : Heap) :
    ∀ (r : Ptr) (L : List Ptr), succChain f h₁ r = some L →
      (∀ q ∈ L, h₂ q = h₁ q) → succChain f h₂ r = some L := by
  induction f with
  | zero => intro r L hL _; simp [succChain] at hL
  | succ f ih =>
    intro r L hL hag
    cases hr : h₁ r with
    | none => simp [succChain, hr] at hL
    | some d =>
      cases hs : d.successor with
      | none =>
        simp [succChain, hr, hs] at hL
        have hr₂ : h₂ r = some d := by rw [hag r (by simp [← hL]), hr]
        simp [succChain, hr₂, hs, hL]
      | some q =>
        simp [succChain, hr, hs] at hL
        obtain ⟨L', hL', hcons⟩ := hL
        have hr₂ : h₂ r = some d := by rw [hag r (by simp [← hcons]), hr]
        have hq₂ : succChain f h₂ q = some L' :=
          ih q L' hL' (fun x hx => hag x (by simp [← hcons, hx]))
        simp [succChain, hr₂, hs, hq₂, hcons]

/-- C2: `addNode(s, n)` appends `n` and then, recursively, the entire chain
of hybrid successor links starting at `n`, in chain order; afterwards every
appended node has a null hybrid successor, and no other node (nor any field
of the sequence other than its child vector) changes. -/
theorem sequence_addNode_spec :
    ∀ (f : Nat) (h : Heap) (s p : Ptr) (L : List Ptr) (ds : ASTNodeData) (vec : List Ptr),
      succChain f h p = some L → L.Nodup → s ∉ L →
      h s = some ds → ds.variant = .sequenceNode vec →
      ∃ h', addNodeGo f h s p = some h' ∧
        h' s = some { ds with variant := .sequenceNode (vec ++ L) } ∧
        (∀ q ∈ L, ∃ dq, h q = some dq ∧ h' q = some { dq with successor := none }) ∧
        (∀ q, q ∉ L → q ≠ s → h' q = h q) := by
  intro f
  induction f with
  | zero => intro h s p L ds vec hL; simp [succChain] at hL
  | succ f ih =>
    intro h s p L ds vec hL hnd hsL hs hvec
    cases hp : h p with
    | none => simp [succChain, hp] at hL
    | some dp =>
      cases hsucc : dp.successor with
      | none =>
        simp [succChain, hp, hsucc] at hL
        subst hL
        have hps : p ≠ s := fun he => hsL (by simp [he])
        refine ⟨writeH h s { ds with variant := .sequenceNode (vec ++ [p]) },
          ?_, writeH_same _ _ _, ?_, ?_⟩
        · simp [addNodeGo, hs, hp, hvec, hsucc]
        · intro q hq
          simp at hq
          subst hq
          refine ⟨dp, hp, ?_⟩
          rw [writeH_other _ _ _ _ hps, hp, succ_none_eta dp hsucc]
        · intro q _ hqs
          exact writeH_other _ _ _ _ hqs
      | some nxt =>
        simp [succChain, hp, hsucc] at hL
        obtain ⟨L', hL', hcons⟩ := hL
        subst hcons
        have hpL' : p ∉ L' := (List.nodup_cons.mp hnd).1
        have hnd' : L'.Nodup := (List.nodup_cons.mp hnd).2
        have hsL' : s ∉ L' := fun hx => hsL (by simp [hx])
        have hps : p ≠ s := fun he => hsL (by simp [he])
        set ds₁ : ASTNodeData := { ds with variant := .sequenceNode (vec ++ [p]) } with hds₁
        set h₁ := writeH h s ds₁ with hh₁
        set h₂ := writeH h₁ p { dp with successor := none } with hh₂
        have hag : ∀ q ∈ L', h₂ q = h q := by
          intro q hq
          have hqp : q ≠ p := fun he => hpL' (he ▸ hq)
          have hqs : q ≠ s := fun he => hsL' (he ▸ hq)
          rw [hh₂, writeH_other _ _ _ _ hqp, hh₁, writeH_other _ _ _ _ hqs]
        have hchain₂ : succChain f h₂ nxt = some L' :=
          succChain_congr f h h₂ nxt L' hL' hag
        have hs₂ : h₂ s = some ds₁ := by
          rw [hh₂, writeH_other _ _ _ _ (Ne.symm hps), hh₁]
          exact writeH_same _ _ _
        obtain ⟨h', hrun, hseq, hclear, hframe⟩ :=
          ih h₂ s nxt L' ds₁ (vec ++ [p]) hchain₂ hnd' hsL' hs₂ rfl
        refine ⟨h', ?_, ?_, ?_, ?_⟩
        · simp only [addNodeGo, hs, hp, hvec, hsucc]
          exact hrun
        · have hassoc : vec ++ p :: L' = (vec ++ [p]) ++ L' := by simp
          rw [hassoc]
          exact hseq
        · intro q hq
          rcases List.mem_cons.mp hq with rfl | hq'
          · refine ⟨dp, hp, ?_⟩
            rw [hframe q hpL' hps, hh₂]
            exact writeH_same _ _ _
          · obtain ⟨dq, hdq₂, hdq'⟩ := hclear q hq'
            exact ⟨dq, by rw [← hag q hq', hdq₂], hdq'⟩
        · intro q hqL hqs
          have hq' : q ∉ L' := fun hx => hqL (by simp [hx])
          have hqp : q ≠ p := fun he => hqL (by simp [he])
          rw [hframe q hq' hqs, hh₂, writeH_other _ _ _ _ hqp, hh₁,
            writeH_other _ _ _ _ hqs]

/-- Witness for C2: a two-node successor chain appended into a sequence. -/
theorem sequence_addNode_spec_witness :
    ∃ h', addNodeGo 2 chainHeap 0 1 = some h' ∧
      h' 0 = some ⟨none, "seq", none, 0, .sequenceNode ([] ++ [1, 2])⟩ ∧
      (∀ q ∈ [1, 2], ∃ dq, chainHeap q = some dq ∧
        h' q = some { dq with successor := none }) ∧
      (∀ q, q ∉ [1, 2] → q ≠ 0 → h' q = chainHeap q) :=
  sequence_addNode_spec 2 chainHeap 0 1 [1, 2]
    ⟨none, "seq", none, 0, .sequenceNode []⟩ []
    (by decide) (by decide) (by decide) (by decide) (by decide)

/-! ## C3: pointer update through a substitution map -/

theorem updOpt_ok (M : Ptr → Option Ptr) (o : Option Ptr)
    (ho : ∀ r, o = some r → (M r).isSome) :
    updOpt M o = .ok (o.map (fun r => (M r).getD r)) := by
  cases o with
  | none => rfl
  | some r =>
    obtain ⟨r', hr'⟩ := Option.isSome_iff_exists.mp (ho r rfl)
    simp [updOpt, hr']

theorem updAll_ok (M : Ptr → Option Ptr) (l : List Ptr)
    (hl : ∀ r ∈ l, (M r).isSome) :
    updAll M l = .ok (l.map (fun r => (M r).getD r)) := by
  induction l with
  | nil => rfl
  | cons r rs ih =>
    obtain ⟨r', hr'⟩ := Option.isSome_iff_exists.mp (hl r (by simp))
    simp [updAll, hr', ih (fun x hx => hl x (by simp [hx])), Except.map]

theorem updCases_ok (M : Ptr → Option Ptr) (l : List (Finset Nat × Ptr))
    (hl : ∀ c ∈ l, (M c.2).isSome) :
    updCases M l = .ok (l.map (fun c => (c.1, (M c.2).getD c.2))) := by
  induction l with
  | nil => rfl
  | cons c cs ih =>
    obtain ⟨ls, r⟩ := c
    obtain ⟨r', hr'⟩ := Option.isSome_iff_exists.mp (hl (ls, r) (by simp))
    simp at hr'
    simp [updCases, hr', ih (fun x hx => hl x (by simp [hx])), Except.map]

theorem updateASTNodesPointers_ok (M : Ptr → Option Ptr) (d : ASTNodeData)
    (hdom : ∀ r ∈ d.updateRefs, (M r).isSome)
    (hcont : ∀ ci imp, d.variant = .continueNode ci imp → ci = none) :
    d.updateASTNodesPointers M = .ok (remapData (fun r => (M r).getD r) d) := by
  have hsucc : updOpt M d.successor =
      .ok (d.successor.map fun r => (M r).getD r) :=
    updOpt_ok M d.successor fun r hr =>
      hdom r (by simp [ASTNodeData.updateRefs, hr])
  unfold ASTNodeData.updateASTNodesPointers
  rw [hsucc]
  match hv : d.variant with
  | .ifNode t e c w =>
    have ht : updOpt M t = .ok (t.map fun r => (M r).getD r) :=
      updOpt_ok M t fun r hr => hdom r (by simp [ASTNodeData.updateRefs, hv, hr])
    have he : updOpt M e = .ok (e.map fun r => (M r).getD r) :=
      updOpt_ok M e fun r hr => hdom r (by simp [ASTNodeData.updateRefs, hv, hr])
    simp [ht, he, remapData, remapVariant, hv]
    rfl
  | .switchNode c cs w nsv nlbd dk =>
    have hcs : updCases M cs = .ok (cs.map fun x => (x.1, (M x.2).getD x.2)) :=
      updCases_ok M cs fun x hx =>
        hdom x.2 (by
          simp only [ASTNodeData.updateRefs, hv]
          exact List.mem_append_right _ (List.mem_map.mpr ⟨x, hx, rfl⟩))
    simp [hcs, remapData, remapVariant, hv]
    rfl
  | .scsNode b lt rc =>
    have hb : updOpt M b = .ok (b.map fun r => (M r).getD r) :=
      updOpt_ok M b fun r hr => hdom r (by simp [ASTNodeData.updateRefs, hv, hr])
    simp [hb, remapData, remapVariant, hv]
    rfl
  | .continueNode ci imp =>
    have : ci = none := hcont ci imp hv
    subst this
    simp [remapData, remapVariant, hv]
  | .switchBreakNode ps =>
    have hp : updOpt M ps = .ok (ps.map fun r => (M r).getD r) :=
      updOpt_ok M ps fun r hr => hdom r (by simp [ASTNodeData.updateRefs, hv, hr])
    simp [hp, remapData, remapVariant, hv]
    rfl
  | .codeNode ir => simp [remapData, remapVariant, hv]
  | .breakNode b => simp [remapData, remapVariant, hv]
  | .setNode sv dk => simp [remapData, remapVariant, hv]
  | .sequenceNode l =>
    have hl : updAll M l = .ok (l.map fun r => (M r).getD r) :=
      updAll_ok M l fun r hr => hdom r (by simp [ASTNodeData.updateRefs, hv, hr])
    simp [hl, remapData, remapVariant, hv]
    rfl

theorem toList_map (σ : Ptr → Ptr) (o : Option Ptr) :
    (o.map σ).toList = o.toList.map σ := by
  cases o <;> simp

theorem updateRefs_remap (σ : Ptr → Ptr) (d : ASTNodeData) :
    (remapData σ d).updateRefs = d.updateRefs.map σ := by
  obtain ⟨bb, name, succ, id, v⟩ := d
  cases succ <;> cases v <;>
    simp [remapData, remapVariant, ASTNodeData.updateRefs, List.map_map,
      Function.comp, toList_map]

/-- Counterexample to C3: a `Continue` node holding a computation `IfNode`,
whose references (as listed by the claim: the hybrid successor and the
kind-specific references) are all covered by the map, still makes
`updateASTNodesPointers` fire `revng_assert(not Continue->hasComputation())`
instead of redirecting anything. -/
theorem update_pointers_cex :
    (∀ r ∈ (⟨none, "continue", none, 0, .continueNode (some 5) false⟩ :
        ASTNodeData).updateRefs,
      ((fun q => if q = 5 then some 7 else none) r).isSome) ∧
    (⟨none, "continue", none, 0, .continueNode (some 5) false⟩ :
        ASTNodeData).updateASTNodesPointers
      (fun q => if q = 5 then some 7 else none) = .error .assertFailure :=
  ⟨by simp [ASTNodeData.updateRefs], by rfl⟩

/-- C3 (amended): for every AST node `n` that is not a `Continue` holding a
computation, and every substitution map `M` whose domain contains every
AST-node reference held by `n` (hybrid successor, `If.then/else`,
`Scs.body`, `Sequence.children`, `Switch.cases[i].child`,
`SwitchBreak.parent_switch`), `updateASTNodesPointers(n, M)` succeeds and
each such reference of the result equals `M` applied to its old value; when
moreover no value of `M` is itself a key of `M` (true of the old→new maps
the passes build), no reference of the result is a key in the domain of
`M`. -/
theorem update_pointers_spec (M : Ptr → Option Ptr) (d : ASTNodeData)
    (hdom : ∀ r ∈ d.updateRefs, (M r).isSome)
    (hcont : ∀ ci imp, d.variant = .continueNode ci imp → ci = none) :
    ∃ d', d.updateASTNodesPointers M = .ok d' ∧
      d'.updateRefs = d.updateRefs.map (fun r => (M r).getD r) ∧
      ((∀ a b, M a = some b → M b = none) → ∀ r ∈ d'.updateRefs, M r = none) := by
  refine ⟨_, updateASTNodesPointers_ok M d hdom hcont, updateRefs_remap _ d, ?_⟩
  intro hdisj r hr
  rw [updateRefs_remap] at hr
  obtain ⟨r₀, hr₀, rfl⟩ := List.mem_map.mp hr
  obtain ⟨b, hb⟩ := Option.isSome_iff_exists.mp (hdom r₀ hr₀)
  rw [hb]
  exact hdisj r₀ b hb

/-- Witness for C3 (amended) at a concrete `If` node. -/
theorem update_pointers_spec_witness :
    ∃ d', (⟨none, "if", some 2, 0, .ifNode (some 1) none none false⟩ :
        ASTNodeData).updateASTNodesPointers
      (fun q => if q = 1 then some 10 else if q = 2 then some 20 else none) = .ok d' ∧
      d'.updateRefs =
        (⟨none, "if", some 2, 0, .ifNode (some 1) none none false⟩ :
          ASTNodeData).updateRefs.map
          (fun r => ((fun q => if q = 1 then some 10 else
            if q = 2 then some 20 else none) r).getD r) ∧
      ((∀ a b, (fun q => if q = 1 then some 10 else
          if q = 2 then some 20 else none) a = some b →
        (fun q => if q = 1 then some 10 else
          if q = 2 then some 20 else none) b = none) →
        ∀ r ∈ d'.updateRefs, (fun q => if q = 1 then some 10 else
          if q = 2 then some 20 else none) r = none) :=
  update_pointers_spec _ ⟨none, "if", some 2, 0, .ifNode (some 1) none none false⟩
    (by decide) (by intro ci imp h; simp at h)

/-! ## C5: structural equality ignores IDs and names -/

theorem matchData_attrsEq (σ : Ptr → Ptr) (d d' : ASTNodeData)
    (h : matchData σ d d' = true) : attrsEq d d' = true := by
  obtain ⟨bb, name, succ, id, v⟩ := d
  obtain ⟨bb', name', succ', id', v'⟩ := d'
  simp only [matchData, Bool.and_eq_true] at h
  obtain ⟨-, hv⟩ := h
  cases v <;> cases v' <;>
    simp_all [variantMatch, attrsEq, List.map_map, Function.comp]

theorem matchData_childRefs (σ : Ptr → Ptr) (d d' : ASTNodeData)
    (h : matchData σ d d' = true) :
    childRefs d' = (childRefs d).map (Option.map σ) := by
  obtain ⟨bb, name, succ, id, v⟩ := d
  obtain ⟨bb', name', succ', id', v'⟩ := d'
  simp only [matchData, Bool.and_eq_true] at h
  obtain ⟨-, hv⟩ := h
  cases v <;> cases v' <;>
    simp_all [variantMatch, childRefs, List.map_map, Function.comp]

theorem filterMap_id_map_optionMap (σ : Ptr → Ptr) (L : List (Option Ptr)) :
    (L.map (Option.map σ)).filterMap id = (L.filterMap id).map σ := by
  induction L with
  | nil => rfl
  | cons o l ih => cases o <;> simp [ih]

theorem matchData_childPtrs (σ : Ptr → Ptr) (d d' : ASTNodeData)
    (h : matchData σ d d' = true) :
    childPtrs d' = (childPtrs d).map σ := by
  unfold childPtrs
  rw [matchData_childRefs σ d d' h]
  exact filterMap_id_map_optionMap σ (childRefs d)

theorem isEqual_succ (h : Heap) (f : Nat) (p q : Ptr) (d₁ d₂ : ASTNodeData)
    (h₁ : h p = some d₁) (h₂ : h q = some d₂) :
    isEqual h (f + 1) p q = (attrsEq d₁ d₂ && childrenEqB (isEqual h f) d₁ d₂) := by
  simp only [isEqual, h₁, h₂]

theorem zip_map_all_eq (h : Heap) (σ : Ptr → Ptr) (f : Nat) (l : List (Option Ptr))
    (hrec : ∀ a, some a ∈ l → isEqual h f a (σ a) = true) :
    ((l.zip (l.map (Option.map σ))).all fun pr =>
      match pr with
      | (none, none) => true
      | (some a, some b) => isEqual h f a b
      | _ => false) = true := by
  induction l with
  | nil => rfl
  | cons o l ih =>
    simp only [List.map_cons, List.zip_cons_cons, List.all_cons, Bool.and_eq_true]
    refine ⟨?_, ih fun a ha => hrec a (by simp [ha])⟩
    cases o with
    | none => rfl
    | some a => simpa using hrec a (by simp)

/-- Any two nodes whose reachable structures differ only in IDs and names —
related by an address translation `σ` under which every field but the ID
and the name corresponds — are structurally equal. -/
theorem isEqual_of_iso (h : Heap) (σ : Ptr → Ptr) (S : List Ptr)
    (hcl : childClosed h S = true)
    (hm : S.all (matchesAt h σ) = true) :
    ∀ f p, p ∈ S → depthOk h f (σ p) = true → isEqual h f p (σ p) = true := by
  intro f
  induction f with
  | zero => intro p hp hd; simp [depthOk] at hd
  | succ f ih =>
    intro p hp hd
    have hma : matchesAt h σ p = true := List.all_eq_true.mp hm p hp
    cases hpd : h p with
    | none => simp [matchesAt, hpd] at hma
    | some d =>
      cases hpd' : h (σ p) with
      | none => simp [matchesAt, hpd, hpd'] at hma
      | some d' =>
        simp only [matchesAt, hpd, hpd'] at hma
        rw [isEqual_succ h f p (σ p) d d' hpd hpd',
          matchData_attrsEq σ d d' hma, Bool.true_and]
        unfold childrenEqB
        rw [matchData_childRefs σ d d' hma]
        refine (Bool.and_eq_true _ _).mpr ⟨by simp, ?_⟩
        apply zip_map_all_eq
        intro a ha
        have haP : a ∈ childPtrs d := by
          simp only [childPtrs, List.mem_filterMap]
          exact ⟨some a, ha, rfl⟩
        have haS : a ∈ S := by
          have hclp := List.all_eq_true.mp hcl p hp
          rw [hpd] at hclp
          have := List.all_eq_true.mp hclp a haP
          simpa using this
        have hda : depthOk h f (σ a) = true := by
          rw [depthOk, hpd'] at hd
          have hmem : σ a ∈ childPtrs d' := by
            rw [matchData_childPtrs σ d d' hma]
            exact List.mem_map.mpr ⟨a, haP, rfl⟩
          exact List.all_eq_true.mp hd (σ a) hmem
        exact ih a haS hda

/-- C5: structural equality compares the kind, the §4.5 attribute fields
and the children, and ignores IDs and names: two nodes that differ only in
ID or name fields (correspondence witnessed by any translation `σ` on a
child-closed set) are `isEqual`, and two nodes of the same kind that differ
in an attribute field or in a child are not. -/
theorem structural_equality_spec :
    (∀ (h : Heap) (σ : Ptr → Ptr) (S : List Ptr) (p : Ptr) (f : Nat),
      childClosed h S = true → S.all (matchesAt h σ) = true → p ∈ S →
      depthOk h f (σ p) = true → isEqual h f p (σ p) = true) ∧
    (∀ (h : Heap) (f : Nat) (p q : Ptr) (d₁ d₂ : ASTNodeData),
      h p = some d₁ → h q = some d₂ → d₁.kind = d₂.kind →
      (attrsEq d₁ d₂ = false ∨ childrenEqB (isEqual h f) d₁ d₂ = false) →
      isEqual h (f + 1) p q = false) := by
  constructor
  · intro h σ S p f hcl hm hp hd
    exact isEqual_of_iso h σ S hcl hm f p hp hd
  · intro h f p q d₁ d₂ h₁ h₂ _ hdiff
    rw [isEqual_succ h f p q d₁ d₂ h₁ h₂]
    rcases hdiff with hd | hd <;> simp [hd]

/-- Witness for C5: two code nodes differing only in ID and name are equal;
two set nodes differing in the state value are not. -/
theorem structural_equality_spec_witness :
    isEqual eqHeap 1 0 1 = true ∧ isEqual eqHeap 1 2 3 = false :=
  ⟨structural_equality_spec.1 eqHeap (fun q => if q = 0 then 1 else q) [0] 0 1
      (by decide) (by decide) (by decide) (by decide),
    structural_equality_spec.2 eqHeap 0 2 3
      ⟨none, "s2", none, 2, .setNode 0 .DK_Entry⟩
      ⟨none, "s3", none, 3, .setNode 1 .DK_Entry⟩
      rfl rfl rfl (Or.inl (by decide))⟩

/-! ## Reachability and index bookkeeping -/

theorem addMissing_prefix {α : Type} [DecidableEq α] (new : List α) :
    ∀ s : List α, ∃ t, addMissing s new = s ++ t := by
  induction new with
  | nil => intro s; exact ⟨[], by simp [addMissing]⟩
  | cons q new ih =>
    intro s
    have hstep : addMissing s (q :: new) =
        addMissing (if q ∈ s then s else s ++ [q]) new := rfl
    by_cases hq : q ∈ s
    · rw [hstep, if_pos hq]; exact ih s
    · rw [hstep, if_neg hq]
      obtain ⟨t, ht⟩ := ih (s ++ [q])
      exact ⟨q :: t, by rw [ht]; simp⟩

theorem mem_addMissing {α : Type} [DecidableEq α] (new : List α) :
    ∀ (s : List α) (x : α), x ∈ addMissing s new ↔ x ∈ s ∨ x ∈ new := by
  induction new with
  | nil => intro s x; simp [addMissing]
  | cons q new ih =>
    intro s x
    have hstep : addMissing s (q :: new) =
        addMissing (if q ∈ s then s else s ++ [q]) new := rfl
    rw [hstep]
    by_cases hq : q ∈ s
    · rw [if_pos hq, ih]
      constructor
      · rintro (hx | hx)
        · exact Or.inl hx
        · exact Or.inr (by simp [hx])
      · rintro (hx | hx)
        · exact Or.inl hx
        · rcases List.mem_cons.mp hx with rfl | hx'
          · exact Or.inl hq
          · exact Or.inr hx'
    · rw [if_neg hq, ih]
      constructor
      · rintro (hx | hx)
        · rcases List.mem_append.mp hx with hx' | hx'
          · exact Or.inl hx'
          · simp at hx'
            exact Or.inr (by simp [hx'])
        · exact Or.inr (by simp [hx])
      · rintro (hx | hx)
        · exact Or.inl (List.mem_append.mpr (Or.inl hx))
        · rcases List.mem_cons.mp hx with rfl | hx'
          · exact Or.inl (List.mem_append.mpr (Or.inr (by simp)))
          · exact Or.inr hx'

theorem mem_stepR (h : Heap) (s : List Ptr) (x : Ptr) :
    x ∈ stepR h s ↔ x ∈ s ∨ ∃ q ∈ s, x ∈ refsOf h q := by
  unfold stepR
  rw [mem_addMissing]
  simp [List.mem_flatMap]

theorem refs_mem_of_closed (h : Heap) (R : List Ptr) (hclosed : stepR h R = R)
    (q : Ptr) (hq : q ∈ R) (r : Ptr) (hr : r ∈ refsOf h q) : r ∈ R := by
  have : r ∈ stepR h R := (mem_stepR h R r).mpr (Or.inr ⟨q, hq, hr⟩)
  rwa [hclosed] at this

theorem reachList_head (h : Heap) (fuel : Nat) (p : Ptr) :
    ∃ t, reachList h fuel p = p :: t := by
  induction fuel with
  | zero => exact ⟨[], rfl⟩
  | succ f ih =>
    obtain ⟨t, ht⟩ := ih
    rw [reachList, Function.iterate_succ_apply']
    have ht' : (stepR h)^[f] [p] = p :: t := ht
    rw [ht']
    obtain ⟨t₂, ht₂⟩ := addMissing_prefix ((p :: t).flatMap (refsOf h)) (p :: t)
    exact ⟨t ++ t₂, by unfold stepR; rw [ht₂]; simp⟩

theorem mem_reachList_self (h : Heap) (fuel : Nat) (p : Ptr) :
    p ∈ reachList h fuel p := by
  obtain ⟨t, ht⟩ := reachList_head h fuel p
  simp [ht]

theorem reach_subset_closed (h : Heap) (T : List Ptr)
    (hT : ∀ q ∈ T, ∀ r ∈ refsOf h q, r ∈ T) :
    ∀ (n : Nat) (s : List Ptr), (∀ x ∈ s, x ∈ T) →
      ∀ x ∈ (stepR h)^[n] s, x ∈ T := by
  intro n
  induction n with
  | zero => intro s hs x hx; exact hs x hx
  | succ n ih =>
    intro s hs x hx
    rw [Function.iterate_succ_apply] at hx
    refine ih (stepR h s) ?_ x hx
    intro y hy
    rcases (mem_stepR h s y).mp hy with h₁ | ⟨q, hq, hr⟩
    · exact hs y h₁
    · exact hT q (hs q hq) y hr

theorem idxOf_isSome_of_mem (l : List Ptr) (q : Ptr) (h : q ∈ l) :
    (idxOf l q).isSome := by
  induction l with
  | nil => simp at h
  | cons a l ih =>
    by_cases hqa : q = a
    · simp [idxOf, hqa]
    · rcases List.mem_cons.mp h with h' | h'
      · exact absurd h' hqa
      · rw [idxOf, if_neg hqa]
        cases hx : idxOf l q with
        | none => exact absurd (ih h') (by simp [hx])
        | some j => simp [hx]

theorem getD_idxOf (l : List Ptr) (q : Ptr) :
    ∀ i : Nat, idxOf l q = some i → l.getD i 0 = q := by
  induction l with
  | nil => intro i h; simp [idxOf] at h
  | cons a l ih =>
    intro i h
    by_cases hqa : q = a
    · rw [idxOf, if_pos hqa] at h
      cases h
      simp [hqa]
    · rw [idxOf, if_neg hqa] at h
      obtain ⟨j, hj, rfl⟩ := Option.map_eq_some'.mp h
      simpa using ih j hj

theorem idxOf_lt_length (l : List Ptr) (q : Ptr) :
    ∀ i : Nat, idxOf l q = some i → i < l.length := by
  induction l with
  | nil => intro i h; simp [idxOf] at h
  | cons a l ih =>
    intro i h
    by_cases hqa : q = a
    · rw [idxOf, if_pos hqa] at h
      cases h
      simp
    · rw [idxOf, if_neg hqa] at h
      obtain ⟨j, hj, rfl⟩ := Option.map_eq_some'.mp h
      have := ih j hj
      simp
      omega

theorem getD_mem (l : List Ptr) : ∀ i : Nat, i < l.length → l.getD i 0 ∈ l := by
  induction l with
  | nil => intro i h; simp at h
  | cons a l ih =>
    intro i h
    cases i with
    | zero => simp
    | succ j =>
      simp only [List.getD_cons_succ]
      exact List.mem_cons_of_mem a (ih j (by simpa using h))

theorem childPtrs_subset_allRefs (d : ASTNodeData) :
    ∀ r ∈ childPtrs d, r ∈ d.allRefs := by
  obtain ⟨bb, name, succ, id, v⟩ := d
  cases succ <;> cases v <;>
    simp [childPtrs, childRefs, ASTNodeData.allRefs, List.mem_filterMap] <;>
    intro r hr <;> first
    | (rcases hr with hr | hr <;> simp [hr])
    | simp [hr]
    | tauto

theorem successor_mem_allRefs (d : ASTNodeData) (s : Ptr)
    (hs : d.successor = some s) : s ∈ d.allRefs := by
  simp [ASTNodeData.allRefs, hs]

/-! ## The deep clone: the two passes land a fully fresh isomorphic copy -/

theorem cloneMap_isSome (R : List Ptr) (fresh : Nat) (r : Ptr) (hr : r ∈ R) :
    ((cloneMap R fresh) r).isSome := by
  unfold cloneMap
  cases hx : idxOf R r with
  | none => exact absurd (idxOf_isSome_of_mem R r hr) (by simp [hx])
  | some j => simp [hx]

theorem cloneOk_of (h : Heap) (R : List Ptr) (fresh : Nat)
    (hclosed : stepR h R = R) (halloc : ∀ q ∈ R, (h q).isSome) :
    cloneOk h (cloneMap R fresh) R = true := by
  rw [cloneOk, List.all_eq_true]
  intro q hq
  obtain ⟨d, hd⟩ := Option.isSome_iff_exists.mp (halloc q hq)
  rw [hd]
  rw [List.all_eq_true]
  intro r hr
  have hrR : r ∈ R := refs_mem_of_closed h R hclosed q hq r
    (by rw [refsOf, hd]; exact hr)
  exact cloneMap_isSome R fresh r hrR

theorem cloneHeap2_old (h : Heap) (R : List Ptr) (fresh freshId : Nat) (q : Ptr)
    (hq : ¬(fresh ≤ q ∧ q - fresh < R.length)) :
    cloneHeap2 h R fresh freshId q = h q := by
  unfold cloneHeap2 cloneHeap1
  rw [if_neg hq, if_neg hq]

theorem cloneHeap2_new (h : Heap) (R : List Ptr) (fresh freshId : Nat) (i : Nat)
    (hi : i < R.length) (d : ASTNodeData) (hd : h (R.getD i 0) = some d) :
    cloneHeap2 h R fresh freshId (fresh + i) =
      some (remapAllRefs (fun r => ((cloneMap R fresh) r).getD r)
        { d with id := freshId + i }) := by
  have hcond : fresh ≤ fresh + i ∧ fresh + i - fresh < R.length := by
    constructor
    · omega
    · omega
  have hsub : fresh + i - fresh = i := by omega
  unfold cloneHeap2 cloneHeap1
  rw [if_pos hcond, if_pos hcond, hsub, hd]
  rfl

theorem remapAllRefs_childRefs (σ : Ptr → Ptr) (d : ASTNodeData) :
    childRefs (remapAllRefs σ d) = (childRefs d).map (Option.map σ) := by
  obtain ⟨bb, name, succ, id, v⟩ := d
  cases v <;>
    simp [remapAllRefs, remapAllVariant, childRefs, List.map_map, Function.comp]

theorem remapAllRefs_childPtrs (σ : Ptr → Ptr) (d : ASTNodeData) :
    childPtrs (remapAllRefs σ d) = (childPtrs d).map σ := by
  unfold childPtrs
  rw [remapAllRefs_childRefs]
  exact filterMap_id_map_optionMap σ (childRefs d)

theorem remapAllRefs_allRefs (σ : Ptr → Ptr) (d : ASTNodeData) :
    (remapAllRefs σ d).allRefs = d.allRefs.map σ := by
  obtain ⟨bb, name, succ, id, v⟩ := d
  cases succ <;> cases v <;>
    simp [remapAllRefs, remapAllVariant, ASTNodeData.allRefs, toList_map,
      List.map_map, Function.comp]

theorem sigma_cloneMap (R : List Ptr) (fresh : Nat) (r : Ptr) (hr : r ∈ R) :
    R.getD (((cloneMap R fresh) r).getD r - fresh) 0 = r := by
  cases hx : idxOf R r with
  | none => exact absurd (idxOf_isSome_of_mem R r hr) (by simp [hx])
  | some j =>
    have : ((cloneMap R fresh) r).getD r = fresh + j := by simp [cloneMap, hx]
    rw [this]
    have hsub : fresh + j - fresh = j := by omega
    rw [hsub]
    exact getD_idxOf R r j hx

theorem clone_matchesAt (h : Heap) (R : List Ptr) (fresh freshId : Nat)
    (hclosed : stepR h R = R) (halloc : ∀ q ∈ R, (h q).isSome)
    (hfresh : ∀ q ∈ R, q < fresh)
    (i : Nat) (hi : i < R.length) :
    matchesAt (cloneHeap2 h R fresh freshId) (fun q => R.getD (q - fresh) 0)
      (fresh + i) = true := by
  have hqR : R.getD i 0 ∈ R := getD_mem R i hi
  obtain ⟨d, hd⟩ := Option.isSome_iff_exists.mp (halloc _ hqR)
  have hnew := cloneHeap2_new h R fresh freshId i hi d hd
  have hold : cloneHeap2 h R fresh freshId (R.getD i 0) = h (R.getD i 0) :=
    cloneHeap2_old h R fresh freshId (R.getD i 0)
      (fun hcond => absurd hcond.1 (not_le.mpr (hfresh (R.getD i 0) hqR)))
  have hinv : ∀ r ∈ d.allRefs,
      R.getD (((cloneMap R fresh) r).getD r - fresh) 0 = r := fun r hr =>
    sigma_cloneMap R fresh r (refs_mem_of_closed h R hclosed _ hqR r
      (by rw [refsOf, hd]; exact hr))
  have hopt : ∀ o : Option Ptr, (∀ a, o = some a → a ∈ d.allRefs) →
      ((o.map fun r => ((cloneMap R fresh) r).getD r).map
        fun q => R.getD (q - fresh) 0) = o := by
    intro o ho
    cases o with
    | none => rfl
    | some a =>
      simp only [Option.map_some']
      rw [hinv a (ho a rfl)]
  have hsub : fresh + i - fresh = i := by omega
  unfold matchesAt
  rw [hnew]
  simp only [hsub]
  rw [hold, hd]
  simp only [matchData, Bool.and_eq_true, decide_eq_true_eq]
  refine ⟨⟨by simp [remapAllRefs], ?_⟩, ?_⟩
  · exact (hopt d.successor (fun a ha => successor_mem_allRefs d a ha)).symm
  · cases hv : d.variant with
    | codeNode ir => simp [remapAllRefs, remapAllVariant, variantMatch]
    | breakNode b => simp [remapAllRefs, remapAllVariant, variantMatch]
    | setNode sv dk => simp [remapAllRefs, remapAllVariant, variantMatch]
    | continueNode ci imp =>
      have hC := hopt ci (by intro a ha; simp [ASTNodeData.allRefs, hv, ha])
      simp only [remapAllRefs, remapAllVariant, variantMatch, decide_eq_true_eq]
      refine ⟨hC.symm, ?_⟩
      trivial
    | switchBreakNode ps =>
      have hps := hopt ps (by intro a ha; simp [ASTNodeData.allRefs, hv, ha])
      simp only [remapAllRefs, remapAllVariant, variantMatch, decide_eq_true_eq]
      exact hps.symm
    | ifNode t e c w =>
      have hT := hopt t (by intro a ha; simp [ASTNodeData.allRefs, hv, ha])
      have hE := hopt e (by intro a ha; simp [ASTNodeData.allRefs, hv, ha])
      simp only [remapAllRefs, remapAllVariant, variantMatch, decide_eq_true_eq]
      refine ⟨hT.symm, hE.symm, ?_, ?_⟩ <;> trivial
    | scsNode b lt rc =>
      have hB := hopt b (by intro a ha; simp [ASTNodeData.allRefs, hv, ha])
      have hRC := hopt rc (by intro a ha; simp [ASTNodeData.allRefs, hv, ha])
      simp only [remapAllRefs, remapAllVariant, variantMatch, decide_eq_true_eq]
      refine ⟨hB.symm, ?_, hRC.symm⟩
      trivial
    | sequenceNode l =>
      have hmem : ∀ a ∈ l, a ∈ d.allRefs := by
        intro a ha
        simp only [ASTNodeData.allRefs, hv]
        exact List.mem_append_right _ ha
      have hL : ((l.map fun r => ((cloneMap R fresh) r).getD r).map
          fun q => R.getD (q - fresh) 0) = l := by
        rw [List.map_map]
        have hcg : ∀ a ∈ l,
            ((fun q => R.getD (q - fresh) 0) ∘
              fun r => ((cloneMap R fresh) r).getD r) a = a := by
          intro a ha
          exact hinv a (hmem a ha)
        exact (List.map_congr_left hcg).trans (by simp)
      simp only [remapAllRefs, remapAllVariant, variantMatch, decide_eq_true_eq]
      exact hL.symm
    | switchNode c cs w nsv nlbd dk =>
      have hmem : ∀ x ∈ cs, x.2 ∈ d.allRefs := by
        intro x hx
        simp only [ASTNodeData.allRefs, hv]
        exact List.mem_append_right _ (List.mem_map.mpr ⟨x, hx, rfl⟩)
      have hCS : ((cs.map fun x => (x.1, ((cloneMap R fresh) x.2).getD x.2)).map
          fun x => (x.1, R.getD (x.2 - fresh) 0)) = cs := by
        rw [List.map_map]
        have hcg : ∀ x ∈ cs,
            ((fun x => (x.1, R.getD (x.2 - fresh) 0)) ∘
              fun x => (x.1, ((cloneMap R fresh) x.2).getD x.2)) x = x := by
          intro x hx
          have hx2 := hinv x.2 (hmem x hx)
          show (x.1, R.getD (((cloneMap R fresh) x.2).getD x.2 - fresh) 0) = x
          rw [hx2]
        exact (List.map_congr_left hcg).trans (by simp)
      simp only [remapAllRefs, remapAllVariant, variantMatch, decide_eq_true_eq]
      refine ⟨?_, hCS.symm, ?_, ?_, ?_, ?_⟩ <;> trivial

theorem clone_childClosed (h : Heap) (R : List Ptr) (fresh freshId : Nat)
    (hclosed : stepR h R = R) (halloc : ∀ q ∈ R, (h q).isSome) :
    childClosed (cloneHeap2 h R fresh freshId)
      ((List.range R.length).map (fresh + ·)) = true := by
  rw [childClosed, List.all_eq_true]
  intro r' hr'
  obtain ⟨i, hiR, rfl⟩ := List.mem_map.mp hr'
  have hi := List.mem_range.mp hiR
  have hqR : R.getD i 0 ∈ R := getD_mem R i hi
  obtain ⟨d, hd⟩ := Option.isSome_iff_exists.mp (halloc _ hqR)
  have hnew := cloneHeap2_new h R fresh freshId i hi d hd
  simp only [hnew]
  rw [remapAllRefs_childPtrs, List.all_eq_true]
  intro x hx
  obtain ⟨c, hc, rfl⟩ := List.mem_map.mp hx
  have hcR : c ∈ R := refs_mem_of_closed h R hclosed _ hqR c
    (by rw [refsOf, hd]; exact childPtrs_subset_allRefs _ c hc)
  cases hix : idxOf R c with
  | none => exact absurd (idxOf_isSome_of_mem R c hcR) (by simp [hix])
  | some j =>
    have hj := idxOf_lt_length R c j hix
    simp only [decide_eq_true_eq, cloneMap, hix, Option.getD_some, Option.map_some']
    exact List.mem_map.mpr ⟨j, List.mem_range.mpr hj, rfl⟩

theorem clone_refsClosed_new (h : Heap) (R : List Ptr) (fresh freshId : Nat)
    (hclosed : stepR h R = R) (halloc : ∀ q ∈ R, (h q).isSome) :
    ∀ r' ∈ (List.range R.length).map (fresh + ·),
      ∀ x ∈ refsOf (cloneHeap2 h R fresh freshId) r',
        x ∈ (List.range R.length).map (fresh + ·) := by
  intro r' hr' x hx
  obtain ⟨i, hiR, rfl⟩ := List.mem_map.mp hr'
  have hi := List.mem_range.mp hiR
  have hqR : R.getD i 0 ∈ R := getD_mem R i hi
  obtain ⟨d, hd⟩ := Option.isSome_iff_exists.mp (halloc _ hqR)
  have hnew := cloneHeap2_new h R fresh freshId i hi d hd
  simp only [refsOf, hnew] at hx
  rw [remapAllRefs_allRefs] at hx
  obtain ⟨c, hc, rfl⟩ := List.mem_map.mp hx
  have hcR : c ∈ R := refs_mem_of_closed h R hclosed _ hqR c
    (by rw [refsOf, hd]; exact hc)
  cases hix : idxOf R c with
  | none => exact absurd (idxOf_isSome_of_mem R c hcR) (by simp [hix])
  | some j =>
    have hj := idxOf_lt_length R c j hix
    simp only [cloneMap, hix, Option.getD_some, Option.map_some']
    exact List.mem_map.mpr ⟨j, List.mem_range.mpr hj, rfl⟩

theorem clone_refsClosed_old (h : Heap) (R : List Ptr) (fresh freshId : Nat)
    (hclosed : stepR h R = R) (hfresh : ∀ q ∈ R, q < fresh) :
    ∀ q ∈ R, ∀ x ∈ refsOf (cloneHeap2 h R fresh freshId) q, x ∈ R := by
  intro q hq x hx
  have hold : cloneHeap2 h R fresh freshId q = h q :=
    cloneHeap2_old h R fresh freshId q
      (fun hcond => absurd hcond.1 (not_le.mpr (hfresh q hq)))
  rw [refsOf, hold] at hx
  refine refs_mem_of_closed h R hclosed q hq x ?_
  rw [refsOf]
  exact hx

theorem depthOk_congr (h h' : Heap) (T : List Ptr)
    (hagree : ∀ q ∈ T, h' q = h q)
    (hT : ∀ q ∈ T, ∀ d, h q = some d → ∀ c ∈ childPtrs d, c ∈ T) :
    ∀ (F : Nat) (r : Ptr), r ∈ T → depthOk h F r = true → depthOk h' F r = true := by
  intro F
  induction F with
  | zero => intro r _ hd; simp [depthOk] at hd
  | succ F ih =>
    intro r hr hd
    rw [depthOk] at hd ⊢
    rw [hagree r hr]
    cases hrd : h r with
    | none => rw [hrd] at hd; cases hd
    | some d =>
      rw [hrd] at hd
      rw [List.all_eq_true] at hd ⊢
      intro c hc
      exact ih c (hT r hr d hrd c hc) (hd c hc)

/-- C1: the deep clone of the subtree at `p` is structurally equal to it —
`isEqual(Clone(n), n)` — and shares no node identities with it: no address
reachable from the clone equals an address reachable from `p`. -/
theorem clone_equality_spec (h : Heap) (fuel F fresh freshId : Nat) (p : Ptr)
    (hclosed : stepR h (reachList h fuel p) = reachList h fuel p)
    (halloc : ∀ q ∈ reachList h fuel p, (h q).isSome)
    (hfresh : ∀ q ∈ reachList h fuel p, q < fresh)
    (hdepth : depthOk h F p = true) :
    ∃ h', deepClone h fuel p fresh freshId = some (h', fresh) ∧
      isEqual h' F fresh p = true ∧
      ∀ (F₁ F₂ : Nat) (a b : Ptr), a ∈ reachList h' F₁ fresh →
        b ∈ reachList h' F₂ p → a ≠ b := by
  set R := reachList h fuel p with hR
  set h' := cloneHeap2 h R fresh freshId with hh'
  set S := (List.range R.length).map (fresh + ·) with hS
  have hok := cloneOk_of h R fresh hclosed halloc
  have hdc : deepClone h fuel p fresh freshId = some (h', fresh) := by
    unfold deepClone
    simp only [← hR, ← hh']
    rw [if_pos hok]
  have hp0 : p ∈ R := mem_reachList_self h fuel p
  have hlen : 0 < R.length := List.length_pos.mpr (by
    intro he
    rw [he] at hp0
    cases hp0)
  have hfreshS : fresh ∈ S := by
    rw [hS]
    exact List.mem_map.mpr ⟨0, List.mem_range.mpr hlen, by simp⟩
  have hhead : R.getD 0 0 = p := by
    obtain ⟨t, ht⟩ := reachList_head h fuel p
    rw [hR, ht]
    rfl
  have hp' : R.getD (fresh - fresh) 0 = p := by
    rw [Nat.sub_self]
    exact hhead
  refine ⟨h', hdc, ?_, ?_⟩
  · have hcl := clone_childClosed h R fresh freshId hclosed halloc
    have hm : S.all (matchesAt h' (fun q => R.getD (q - fresh) 0)) = true := by
      rw [List.all_eq_true]
      intro r' hr'
      obtain ⟨i, hiR, rfl⟩ := List.mem_map.mp hr'
      exact clone_matchesAt h R fresh freshId hclosed halloc hfresh i
        (List.mem_range.mp hiR)
    have hagree : ∀ q ∈ R, h' q = h q := fun q hq =>
      cloneHeap2_old h R fresh freshId q
        (fun hcond => absurd hcond.1 (not_le.mpr (hfresh q hq)))
    have hT : ∀ q ∈ R, ∀ d, h q = some d → ∀ c ∈ childPtrs d, c ∈ R := by
      intro q hq d hd c hc
      exact refs_mem_of_closed h R hclosed q hq c
        (by rw [refsOf, hd]; exact childPtrs_subset_allRefs d c hc)
    have hdepth' : depthOk h' F p = true :=
      depthOk_congr h h' R hagree hT F p hp0 hdepth
    have hiso := isEqual_of_iso h' (fun q => R.getD (q - fresh) 0) S hcl hm F
      fresh hfreshS (by
        show depthOk h' F (R.getD (fresh - fresh) 0) = true
        rw [hp']
        exact hdepth')
    rw [show ((fun q => R.getD (q - fresh) 0) fresh) = p from hp'] at hiso
    exact hiso
  · intro F₁ F₂ a b ha hb
    have hSclosed := clone_refsClosed_new h R fresh freshId hclosed halloc
    have haS : a ∈ S :=
      reach_subset_closed h' S hSclosed F₁ [fresh]
        (by
          intro x hx
          rw [List.mem_singleton] at hx
          subst hx
          exact hfreshS) a ha
    have hbR : b ∈ R :=
      reach_subset_closed h' R (clone_refsClosed_old h R fresh freshId hclosed hfresh)
        F₂ [p]
        (by
          intro x hx
          rw [List.mem_singleton] at hx
          subst hx
          exact hp0) b hb
    obtain ⟨i, hiR, rfl⟩ := List.mem_map.mp haS
    have hb' : b < fresh := hfresh b hbR
    exact fun he => Nat.not_lt.mpr (he ▸ Nat.le_add_right fresh i) hb'

/-- Witness for C1 on the concrete clone demo subtree, which holds a
switch break, a do-while `Scs` with a related condition, and a `Continue`
with a computation `IfNode`. -/
theorem clone_equality_spec_witness :
    ∃ h', deepClone cloneDemoHeap 3 7 10 100 = some (h', 10) ∧
      isEqual h' 4 10 7 = true ∧
      ∀ (F₁ F₂ : Nat) (a b : Ptr), a ∈ reachList h' F₁ 10 →
        b ∈ reachList h' F₂ 7 → a ≠ b :=
  clone_equality_spec cloneDemoHeap 3 4 10 100 7
    (by decide) (by decide) (by decide) (by decide)

/-- C6: the deep clone duplicates every reachable node at a fresh address
(shared with nothing reachable from the original), assigns the copy of the
root a fresh ID distinct from the root's ID, and produces the old-to-new
substitution map `cloneMap` through which the intra-subtree cross links —
`SwitchBreak.parent_switch` and `Scs.related_condition` — are retargeted. -/
theorem clone_deep_copy_spec (h : Heap) (fuel fresh freshId : Nat) (p : Ptr)
    (hclosed : stepR h (reachList h fuel p) = reachList h fuel p)
    (halloc : ∀ q ∈ reachList h fuel p, (h q).isSome)
    (hfresh : ∀ q ∈ reachList h fuel p, q < fresh)
    (hid : idsBelow h (reachList h fuel p) freshId = true) :
    ∃ h', deepClone h fuel p fresh freshId = some (h', fresh) ∧
      (∀ dp d', h p = some dp → h' fresh = some d' →
        d'.id = freshId ∧ d'.id ≠ dp.id) ∧
      (∀ q ∈ reachList h fuel p, ∃ q',
        cloneMap (reachList h fuel p) fresh q = some q' ∧
        q' ∉ reachList h fuel p ∧ (h' q').isSome) ∧
      (∀ q ∈ reachList h fuel p, ∀ d ps, h q = some d →
        d.variant = .switchBreakNode (some ps) →
        ∃ q' ps' d', cloneMap (reachList h fuel p) fresh q = some q' ∧
          cloneMap (reachList h fuel p) fresh ps = some ps' ∧
          h' q' = some d' ∧ d'.variant = .switchBreakNode (some ps')) ∧
      (∀ q ∈ reachList h fuel p, ∀ d b lt rc, h q = some d →
        d.variant = .scsNode b lt (some rc) →
        ∃ q' rc' d', cloneMap (reachList h fuel p) fresh q = some q' ∧
          cloneMap (reachList h fuel p) fresh rc = some rc' ∧
          h' q' = some d' ∧
          ∃ b', d'.variant = .scsNode b' lt (some rc')) := by
  set R := reachList h fuel p with hR
  set h' := cloneHeap2 h R fresh freshId with hh'
  have hok := cloneOk_of h R fresh hclosed halloc
  have hdc : deepClone h fuel p fresh freshId = some (h', fresh) := by
    unfold deepClone
    simp only [← hR, ← hh']
    rw [if_pos hok]
  have hp0 : p ∈ R := mem_reachList_self h fuel p
  have hhead : R.getD 0 0 = p := by
    obtain ⟨t, ht⟩ := reachList_head h fuel p
    rw [hR, ht]
    rfl
  have hlen : 0 < R.length := List.length_pos.mpr (by
    intro he
    rw [he] at hp0
    cases hp0)
  refine ⟨h', hdc, ?_, ?_, ?_, ?_⟩
  · intro dp d' hdp hd'
    have hdp0 : h (R.getD 0 0) = some dp := by rw [hhead]; exact hdp
    have := cloneHeap2_new h R fresh freshId 0 hlen dp hdp0
    rw [show fresh + 0 = fresh from rfl] at this
    rw [hh'] at hd'
    rw [this] at hd'
    cases hd'
    refine ⟨rfl, ?_⟩
    have hlt : dp.id < freshId := by
      have := List.all_eq_true.mp hid p hp0
      rw [hdp] at this
      simpa using this
    show freshId + 0 ≠ dp.id
    omega
  · intro q hq
    cases hix : idxOf R q with
    | none => exact absurd (idxOf_isSome_of_mem R q hq) (by simp [hix])
    | some j =>
      have hj := idxOf_lt_length R q j hix
      have hgd : R.getD j 0 = q := getD_idxOf R q j hix
      obtain ⟨d, hd⟩ := Option.isSome_iff_exists.mp (halloc q hq)
      refine ⟨fresh + j, by simp [cloneMap, hix], ?_, ?_⟩
      · intro hmem
        exact Nat.not_lt.mpr (Nat.le_add_right fresh j) (hfresh _ hmem)
      · have := cloneHeap2_new h R fresh freshId j hj d (by rw [hgd]; exact hd)
        simp [hh', this]
  · intro q hq d ps hd hv
    cases hix : idxOf R q with
    | none => exact absurd (idxOf_isSome_of_mem R q hq) (by simp [hix])
    | some j =>
      have hj := idxOf_lt_length R q j hix
      have hgd : R.getD j 0 = q := getD_idxOf R q j hix
      have hpsR : ps ∈ R := refs_mem_of_closed h R hclosed q hq ps
        (by rw [refsOf, hd]; simp [ASTNodeData.allRefs, hv])
      cases hix2 : idxOf R ps with
      | none => exact absurd (idxOf_isSome_of_mem R ps hpsR) (by simp [hix2])
      | some k =>
        have hnode := cloneHeap2_new h R fresh freshId j hj d
          (by rw [hgd]; exact hd)
        refine ⟨fresh + j, fresh + k, _, by simp [cloneMap, hix],
          by simp [cloneMap, hix2], hnode, ?_⟩
        rw [hv]
        simp [remapAllRefs, remapAllVariant, cloneMap, hix2]
  · intro q hq d b lt rc hd hv
    cases hix : idxOf R q with
    | none => exact absurd (idxOf_isSome_of_mem R q hq) (by simp [hix])
    | some j =>
      have hj := idxOf_lt_length R q j hix
      have hgd : R.getD j 0 = q := getD_idxOf R q j hix
      have hrcR : rc ∈ R := refs_mem_of_closed h R hclosed q hq rc
        (by rw [refsOf, hd]; simp [ASTNodeData.allRefs, hv])
      cases hix2 : idxOf R rc with
      | none => exact absurd (idxOf_isSome_of_mem R rc hrcR) (by simp [hix2])
      | some k =>
        have hnode := cloneHeap2_new h R fresh freshId j hj d
          (by rw [hgd]; exact hd)
        refine ⟨fresh + j, fresh + k, _, by simp [cloneMap, hix],
          by simp [cloneMap, hix2], hnode, ?_⟩
        refine ⟨b.map (fun r => ((cloneMap R fresh) r).getD r), ?_⟩
        rw [hv]
        simp [remapAllRefs, remapAllVariant, cloneMap, hix2]

/-- Witness for C6 on the concrete clone demo subtree, including the
retargeting of `SwitchBreak.parent_switch` and `Scs.related_condition`. -/
theorem clone_deep_copy_spec_witness :
    ∃ h', deepClone cloneDemoHeap 3 7 10 100 = some (h', 10) ∧
      (∀ dp d', cloneDemoHeap 7 = some dp → h' 10 = some d' →
        d'.id = 100 ∧ d'.id ≠ dp.id) ∧
      (∀ q ∈ reachList cloneDemoHeap 3 7, ∃ q',
        cloneMap (reachList cloneDemoHeap 3 7) 10 q = some q' ∧
        q' ∉ reachList cloneDemoHeap 3 7 ∧ (h' q').isSome) ∧
      (∀ q ∈ reachList cloneDemoHeap 3 7, ∀ d ps, cloneDemoHeap q = some d →
        d.variant = .switchBreakNode (some ps) →
        ∃ q' ps' d', cloneMap (reachList cloneDemoHeap 3 7) 10 q = some q' ∧
          cloneMap (reachList cloneDemoHeap 3 7) 10 ps = some ps' ∧
          h' q' = some d' ∧ d'.variant = .switchBreakNode (some ps')) ∧
      (∀ q ∈ reachList cloneDemoHeap 3 7, ∀ d b lt rc, cloneDemoHeap q = some d →
        d.variant = .scsNode b lt (some rc) →
        ∃ q' rc' d', cloneMap (reachList cloneDemoHeap 3 7) 10 q = some q' ∧
          cloneMap (reachList cloneDemoHeap 3 7) 10 rc = some rc' ∧
          h' q' = some d' ∧
          ∃ b', d'.variant = .scsNode b' lt (some rc')) :=
  clone_deep_copy_spec cloneDemoHeap 3 10 100 7
    (by decide) (by decide) (by decide) (by decide)

/-! ## C9: combing-pass tests -/

/-- C9: inflation is a no-op on the already-combed test graphs, and
topological equivalence distinguishes distinct graphs: the inflated
`simple.dot` is topologically equivalent to `simple.dot` and not to
`trivial.dot`, and the inflated `trivial.dot` is topologically equivalent
to `trivial.dot` — the three assertions of CombingPass.cpp. -/
theorem combing_topological_equivalence :
    (∃ g, inflate simpleDot = some g ∧
      isTopologicallyEquivalent g simpleDot = true ∧
      isTopologicallyEquivalent g trivialDot = false) ∧
    (∃ g, inflate trivialDot = some g ∧
      isTopologicallyEquivalent g trivialDot = true) :=
  ⟨⟨simpleDot, by decide, by decide, by decide⟩,
    ⟨trivialDot, by decide, by decide⟩⟩

end Revng
